import Mathlib

/-
Verification of the library reconciliation core of `local-course-browser`
(`src/app/scan.py`, `src/app/models.py`, `src/app/utils.py`).

Modelling conventions of the shallow embedding:
  * A filesystem path (`pathlib.Path`) is a list of path components
    (`PyPath`); `str(path)` joins the components with "/".  Paths fed to
    the scanner are taken to be already absolute and symlink-free, so
    `Path.resolve()` is the identity on them.
  * The filesystem below a directory is the inductive tree `FSNode`;
    directory entries are `(name, node)` pairs in directory order.
  * The SQL store is a `DB` value: lists of `Course` and `Lesson` rows
    plus generated-id counters and a fixed clock used for the
    `created_at` / `updated_at` column defaults.  A `Session` couples a
    `DB` with a trace of store operations (lookups, inserts, field
    updates, commit), which models the session/commit protocol of the
    source.  Queries see pending rows, as SQLModel sessions do
    (autoflush), and `session.flush()` makes the generated id available,
    which the model realises by assigning ids at insertion time.
  * Python's `sorted`/`list.sort` is a stable sort; it is modelled by a
    structural stable insertion sort so that terms evaluate inside the
    kernel.
  * Digit runs (`\d+`, `str.isdigit`) are modelled over the ASCII
    decimal digits, and `str.lower` as per-character lowering,
    which is exact on ASCII names.
-/

namespace LCB

/-! ## Ordering primitives

Python compares sort keys with `<` on lists; elements are compared
pairwise, ints as numbers and strings lexicographically by code point.
A kind mismatch (int vs str) raises `TypeError`, modelled as `none`. -/

def natCmp (m n : Nat) : Ordering :=
  if m < n then Ordering.lt else if n < m then Ordering.gt else Ordering.eq

def charListCmp : List Char → List Char → Ordering
  | [], [] => Ordering.eq
  | [], _ :: _ => Ordering.lt
  | _ :: _, [] => Ordering.gt
  | c :: cs, d :: ds =>
    match natCmp c.toNat d.toNat with
    | Ordering.eq => charListCmp cs ds
    | o => o

def strCmp (s t : String) : Ordering := charListCmp s.data t.data

/-- A token of a natural-order sort key: `int(t) if t.isdigit() else t.lower()`. -/
inductive NToken where
  | str (s : String) : NToken
  | num (n : Nat) : NToken
deriving DecidableEq

def NToken.isNum : NToken → Bool
  | NToken.num _ => true
  | NToken.str _ => false

def tokCmp : NToken → NToken → Option Ordering
  | NToken.num m, NToken.num n => some (natCmp m n)
  | NToken.str s, NToken.str t => some (strCmp s t)
  | _, _ => none

def keyCmp : List NToken → List NToken → Option Ordering
  | [], [] => some Ordering.eq
  | [], _ :: _ => some Ordering.lt
  | _ :: _, [] => some Ordering.gt
  | a :: as, b :: bs =>
    match tokCmp a b with
    | some Ordering.eq => keyCmp as bs
    | r => r

/-- `key x <= key y` as Python's sort uses it (never `gt`, `none` never
reached on actual `natural_key` outputs). -/
def keyLe (x y : List NToken) : Bool :=
  match keyCmp x y with
  | some Ordering.gt => false
  | _ => true

/-! ## `natural_key` (src/app/scan.py:16-18, src/app/utils.py:6-8)

`re.split(r"(\d+)", s)` produces the alternation
text, digits, text, digits, ..., text (empty text pieces at the
borders when the string starts/ends with a digit run). -/

mutual
/-- Text-mode scanner of `re.split(r"(\d+)", s)`: `acc` is the reversed
pending text chunk. -/
def splitT (acc : List Char) : List Char → List String
  | [] => [String.mk acc.reverse]
  | c :: cs =>
    if c.isDigit then splitD acc.reverse [c] cs else splitT (c :: acc) cs

/-- Digit-mode scanner: `tchunk` is the finished text chunk before the
digit run, `dacc` the reversed pending digit run. -/
def splitD (tchunk : List Char) (dacc : List Char) : List Char → List String
  | [] => [String.mk tchunk, String.mk dacc.reverse, String.mk []]
  | c :: cs =>
    if c.isDigit then splitD tchunk (c :: dacc) cs
    else String.mk tchunk :: String.mk dacc.reverse :: splitT [c] cs
end

def reSplitDigits (s : String) : List String := splitT [] s.data

/-- `str.isdigit` restricted to ASCII digits: nonempty and all digits. -/
def pyIsDigit (s : String) : Bool := !s.data.isEmpty && s.data.all Char.isDigit

/-- `int` on a digit string. -/
def pyInt (s : String) : Nat := s.data.foldl (fun a c => 10 * a + (c.toNat - 48)) 0

/-- `str.lower`, per character (exact on ASCII). -/
def strLower (s : String) : String := String.mk (s.data.map Char.toLower)

/-- `natural_key(s)`: split into [text|int] chunks so 2 < 10. -/
def natural_key (s : String) : List NToken :=
  (reSplitDigits s).map fun t =>
    if pyIsDigit t then NToken.num (pyInt t) else NToken.str (strLower t)

/-! ## Stable sort (model of Python's `sorted` / `list.sort(key=...)`) -/

def orderedInsert (le : α → α → Bool) (a : α) : List α → List α
  | [] => [a]
  | b :: l => if le a b then a :: b :: l else b :: orderedInsert le a l

def insertionSort (le : α → α → Bool) : List α → List α
  | [] => []
  | a :: l => orderedInsert le a (insertionSort le l)

/-! ## Paths -/

/-- A `pathlib.Path`, as its list of components. -/
abbrev PyPath := List String

/-- `str(path)`: components joined with "/". -/
def pathStr : PyPath → String
  | [] => ""
  | [x] => x
  | x :: xs => x ++ "/" ++ pathStr xs

/-- `path.name`: the final component. -/
def pathName (p : PyPath) : String := p.getLast?.getD ""

/-- `path.parent.name`. -/
def parentName (p : PyPath) : String := pathName p.dropLast

/-- Index of the last '.' in a name, as `str.rfind('.')` (when any). -/
def rfindDot (cs : List Char) : Option Nat :=
  (cs.reverse.findIdx? (fun c => c == '.')).map (fun j => cs.length - 1 - j)

/-- `Path.suffix`: the final "." portion of the name, if it is neither
leading nor trailing. -/
def pySuffix (name : String) : String :=
  match rfindDot name.data with
  | some i =>
    if 0 < i ∧ i < name.data.length - 1 then String.mk (name.data.drop i) else ""
  | none => ""

/-- `Path.stem`: the name minus `pySuffix`. -/
def pyStem (name : String) : String :=
  match rfindDot name.data with
  | some i =>
    if 0 < i ∧ i < name.data.length - 1 then String.mk (name.data.take i) else name
  | none => name

/-! ## Filesystem trees -/

inductive FSNode where
  | file : FSNode
  | dir (children : List (String × FSNode)) : FSNode

def FSNode.isDir : FSNode → Bool
  | FSNode.dir _ => true
  | FSNode.file => false

def FSNode.isFile : FSNode → Bool
  | FSNode.file => true
  | FSNode.dir _ => false

mutual
/-- `path.rglob("*")`: every strict descendant of a directory, with its
absolute path, in depth-first directory order (the order is irrelevant
to the scanner, which sorts the result). -/
def descendants (base : PyPath) : FSNode → List (PyPath × FSNode)
  | FSNode.file => []
  | FSNode.dir cs => descendantsList base cs

def descendantsList (base : PyPath) : List (String × FSNode) → List (PyPath × FSNode)
  | [] => []
  | (nm, child) :: rest =>
    (base ++ [nm], child) :: descendants (base ++ [nm]) child ++ descendantsList base rest
end

/-- Well-formed filesystem names: nonempty and without the path
separator (true of every real directory entry). -/
def okName (s : String) : Bool := !s.data.isEmpty && !s.data.contains '/'

mutual
def FSNode.okNames : FSNode → Bool
  | FSNode.file => true
  | FSNode.dir cs => okNamesList cs

def okNamesList : List (String × FSNode) → Bool
  | [] => true
  | (nm, child) :: rest => okName nm && child.okNames && okNamesList rest
end

/-! ## The walker (src/app/scan.py:13, 27-36) -/

def VIDEO_EXTS : List String := [".mp4", ".mkv", ".webm", ".mov", ".m4v"]

/-- The filter of `iter_video_files`: a regular file whose suffix,
lowered, is allow-listed. -/
def isVideo (p : PyPath) (n : FSNode) : Bool :=
  n.isFile && VIDEO_EXTS.contains (strLower (pySuffix (pathName p)))

/-- `iter_video_files(course_dir)`: all descendants sorted by
`natural_key(str(x))`, keeping regular files with an allow-listed
suffix, each tagged with its immediate parent directory's name. -/
def iter_video_files (course_dir : PyPath) (node : FSNode) : List (String × PyPath) :=
  ((insertionSort
      (fun a b => keyLe (natural_key (pathStr a.1)) (natural_key (pathStr b.1)))
      (descendants course_dir node)).filter
    (fun pr => isVideo pr.1 pr.2)).map
    (fun pr => (parentName pr.1, pr.1))

/-- The number of allow-listed video files below a course directory
(order-free count, for the statistics claims). -/
def countVideos (course_dir : PyPath) (node : FSNode) : Nat :=
  ((descendants course_dir node).filter (fun pr => isVideo pr.1 pr.2)).length

/-! ## Store rows (src/app/models.py) -/

structure Course where
  id : Nat
  path : String
  title : String
  created_at : Nat
  updated_at : Nat
deriving DecidableEq

/-- A Lesson row.  models.py's `section` column is called `sect` here
because `section` is a Lean keyword. -/
structure Lesson where
  id : Nat
  course_id : Nat
  path : String
  sect : String
  title : String
  order_key : String
  created_at : Nat
  updated_at : Nat
deriving DecidableEq

inductive LessonField where
  | courseRef : LessonField
  | sectField : LessonField
  | titleField : LessonField
  | orderKeyField : LessonField
deriving DecidableEq

/-- Store operations, recorded so that claims about what a scan does to
the store (lookups, inserts, updates, commit) are statable. -/
inductive StoreOp where
  | lookupCourse (path : String) : StoreOp
  | lookupLesson (path : String) : StoreOp
  | insertCourse (id : Nat) : StoreOp
  | insertLesson (id : Nat) : StoreOp
  | updateCourseTitle (id : Nat) : StoreOp
  | updateLesson (id : Nat) (field : LessonField) : StoreOp
  | commit : StoreOp
deriving DecidableEq

structure DB where
  courses : List Course
  lessons : List Lesson
  nextCourseId : Nat
  nextLessonId : Nat
  clock : Nat
deriving DecidableEq

structure Session where
  db : DB
  trace : List StoreOp
deriving DecidableEq

structure ScanStats where
  courses_seen : Nat
  lessons_seen : Nat
deriving DecidableEq

/-- Replace the first element satisfying `p` (the ORM mutates the one
object returned by `.first()`). -/
def replaceFirst (p : α → Bool) (f : α → α) : List α → List α
  | [] => []
  | x :: xs => if p x then f x :: xs else x :: replaceFirst p f xs

/-- `session.exec(select(Course).where(Course.path == path)).first()`. -/
def courseLookup (db : DB) (path : String) : Option Course :=
  db.courses.find? (fun c => c.path == path)

/-- `session.exec(select(Lesson).where(Lesson.path == path)).first()`. -/
def lessonLookup (db : DB) (path : String) : Option Lesson :=
  db.lessons.find? (fun l => l.path == path)

/-! ## The reconciliation engine (src/app/scan.py:39-122) -/

/-- `upsert_course(session, course_dir)`. -/
def upsert_course (s : Session) (course_dir : PyPath) : Course × Session :=
  let course_path := pathStr course_dir
  let title := pathName course_dir
  let tr := s.trace ++ [StoreOp.lookupCourse course_path]
  match courseLookup s.db course_path with
  | some existing =>
    if existing.title = title then
      (existing, { s with trace := tr })
    else
      ({ existing with title := title },
       { db := { s.db with
                   courses := replaceFirst (fun c => c.path == course_path)
                     (fun c => { c with title := title }) s.db.courses },
         trace := tr ++ [StoreOp.updateCourseTitle existing.id] })
  | none =>
    let course : Course :=
      { id := s.db.nextCourseId, path := course_path, title := title,
        created_at := s.db.clock, updated_at := s.db.clock }
    (course,
     { db := { s.db with
                 courses := s.db.courses ++ [course],
                 nextCourseId := s.db.nextCourseId + 1 },
       trace := tr ++ [StoreOp.insertCourse course.id] })

/-- `upsert_lesson(session, course_id, section, video_path, order_key)`. -/
def upsert_lesson (s : Session) (course_id : Nat) (sect : String)
    (video_path : PyPath) (order_key : String) : Lesson × Session :=
  let path_str := pathStr video_path
  let title := pyStem (pathName video_path)
  let tr := s.trace ++ [StoreOp.lookupLesson path_str]
  match lessonLookup s.db path_str with
  | some existing =>
    let ops :=
      (if existing.course_id = course_id then []
       else [StoreOp.updateLesson existing.id LessonField.courseRef]) ++
      (if existing.sect = sect then []
       else [StoreOp.updateLesson existing.id LessonField.sectField]) ++
      (if existing.title = title then []
       else [StoreOp.updateLesson existing.id LessonField.titleField]) ++
      (if existing.order_key = order_key then []
       else [StoreOp.updateLesson existing.id LessonField.orderKeyField])
    ({ existing with course_id := course_id, sect := sect,
                     title := title, order_key := order_key },
     { db := { s.db with
                 lessons := replaceFirst (fun l => l.path == path_str)
                   (fun l => { l with course_id := course_id, sect := sect,
                                      title := title, order_key := order_key })
                   s.db.lessons },
       trace := tr ++ ops })
  | none =>
    let lesson : Lesson :=
      { id := s.db.nextLessonId, course_id := course_id, path := path_str,
        sect := sect, title := title, order_key := order_key,
        created_at := s.db.clock, updated_at := s.db.clock }
    (lesson,
     { db := { s.db with
                 lessons := s.db.lessons ++ [lesson],
                 nextLessonId := s.db.nextLessonId + 1 },
       trace := tr ++ [StoreOp.insertLesson lesson.id] })

/-- The inner loop of `scan_library`: upsert every `(section, video)` of
one course, counting `lessons_seen`; the order key is the video's path
relative to the course directory (`str(video_path.relative_to(course_dir))`,
i.e. the components after `course_dir`). -/
def scanLessons (course_id : Nat) (course_dir : PyPath) :
    Session → List (String × PyPath) → Nat × Session
  | s, [] => (0, s)
  | s, item :: rest =>
    let s1 := (upsert_lesson s course_id item.1 item.2
      (pathStr (item.2.drop course_dir.length))).2
    let r := scanLessons course_id course_dir s1 rest
    (r.1 + 1, r.2)

/-- The outer loop of `scan_library` over the sorted course directories. -/
def scanCourses (rootPath : PyPath) :
    Session → List (String × FSNode) → ScanStats × Session
  | s, [] => ({ courses_seen := 0, lessons_seen := 0 }, s)
  | s, entry :: rest =>
    let course_dir := rootPath ++ [entry.1]
    let cs := upsert_course s course_dir
    let ls := scanLessons cs.1.id course_dir cs.2 (iter_video_files course_dir entry.2)
    let r := scanCourses rootPath ls.2 rest
    ({ courses_seen := r.1.courses_seen + 1,
       lessons_seen := r.1.lessons_seen + ls.1 }, r.2)

/-- The `course_dirs` list of `scan_library`: the immediate
subdirectories of the root, sorted by `natural_key(p.name)`. -/
def sortedCourseDirs (children : List (String × FSNode)) : List (String × FSNode) :=
  insertionSort (fun a b => keyLe (natural_key a.1) (natural_key b.1))
    (children.filter (fun c => c.2.isDir))

/-- `scan_library(session, courses_dir)`.  `rootPath` is the absolute
path of the root, `root` its filesystem state: `none` when the path
does not exist, `some FSNode.file` when it is not a directory. -/
def scan_library (s : Session) (rootPath : PyPath) (root : Option FSNode) :
    ScanStats × Session :=
  match root with
  | some (FSNode.dir children) =>
    let r := scanCourses rootPath s (sortedCourseDirs children)
    (r.1, { r.2 with trace := r.2.trace ++ [StoreOp.commit] })
  | _ => ({ courses_seen := 0, lessons_seen := 0 }, s)

/-! ## Row signatures and path projections (for the invariant claims) -/

def courseSig (c : Course) : Nat × String × Nat := (c.id, c.path, c.created_at)

def lessonSig (l : Lesson) : Nat × String × Nat := (l.id, l.path, l.created_at)

def coursePaths (db : DB) : List String := db.courses.map Course.path

def lessonPaths (db : DB) : List String := db.lessons.map Lesson.path

/-! ## Alternation structure of natural keys -/

/-- The chunks of `re.split(r"(\d+)", s)` strictly alternate text /
digit-run, starting as indicated by the flag (`true` = digit run). -/
def AltS : Bool → List String → Prop
  | _, [] => True
  | b, t :: ts => pyIsDigit t = b ∧ AltS (!b) ts

/-- Alternation of token kinds in a sort key (`true` = numeric). -/
def AltK : Bool → List NToken → Prop
  | _, [] => True
  | b, t :: ts => t.isNum = b ∧ AltK (!b) ts

/-! ## Concrete fixtures used by the example-based claims -/

def emptyDB : DB :=
  { courses := [], lessons := [], nextCourseId := 1, nextLessonId := 1, clock := 0 }

def emptySession : Session := { db := emptyDB, trace := [] }

/-- The one course of the end-to-end example. -/
def courseANode : FSNode :=
  FSNode.dir
    [("01 Intro", FSNode.dir [("1 - Welcome.mp4", FSNode.file)]),
     ("02 Basics", FSNode.dir [("2 - Vars.mkv", FSNode.file)])]

/-- Children of the example root. -/
def fsAkids : List (String × FSNode) := [("CourseA", courseANode)]

/-- Root of the end-to-end example:
`CourseA/01 Intro/1 - Welcome.mp4` and `CourseA/02 Basics/2 - Vars.mkv`. -/
def fsA : FSNode := FSNode.dir fsAkids

/-- A store that already holds one Course and one Lesson row (used to
instantiate the universally quantified claims at a concrete input). -/
def sampleCourse : Course :=
  { id := 7, path := "root/Old", title := "Old", created_at := 3, updated_at := 3 }

def sampleLesson : Lesson :=
  { id := 9, course_id := 7, path := "root/Old/x.mp4", sect := "Old",
    title := "x", order_key := "x.mp4", created_at := 4, updated_at := 4 }

def sampleSession : Session :=
  { db := { courses := [sampleCourse], lessons := [sampleLesson],
            nextCourseId := 8, nextLessonId := 10, clock := 5 },
    trace := [] }

/-- Deletion scenario, first pass: `CourseA/S1/{a.mp4, b.mp4}`. -/
def fsDel1 : FSNode :=
  FSNode.dir [("CourseA", FSNode.dir
    [("S1", FSNode.dir [("a.mp4", FSNode.file), ("b.mp4", FSNode.file)])])]

/-- Deletion scenario, second pass: `b.mp4` removed from disk. -/
def fsDel2 : FSNode :=
  FSNode.dir [("CourseA", FSNode.dir
    [("S1", FSNode.dir [("a.mp4", FSNode.file)])])]

/-- Move scenario, first pass: `CourseA/S1/f.mp4`. -/
def fsMove1 : FSNode :=
  FSNode.dir [("CourseA", FSNode.dir
    [("S1", FSNode.dir [("f.mp4", FSNode.file)]),
     ("S2", FSNode.dir [])])]

/-- Move scenario, second pass: the file moved to `CourseA/S2/f.mp4`. -/
def fsMove2 : FSNode :=
  FSNode.dir [("CourseA", FSNode.dir
    [("S1", FSNode.dir []),
     ("S2", FSNode.dir [("f.mp4", FSNode.file)])])]

/-! # Theorems -/

/-! ## Stable sort lemmas -/

theorem orderedInsert_perm (le : α → α → Bool) (a : α) (l : List α) :
    List.Perm (orderedInsert le a l) (a :: l) := by
  induction l with
  | nil => simp [orderedInsert]
  | cons b t ih =>
    unfold orderedInsert
    by_cases h : le a b = true
    · simp [h]
    · simp only [h, if_false, Bool.false_eq_true]
      exact (ih.cons b).trans (List.Perm.swap a b t)

theorem insertionSort_permutation (le : α → α → Bool) (l : List α) :
    List.Perm (insertionSort le l) l := by
  induction l with
  | nil => simp [insertionSort]
  | cons a t ih =>
    exact (orderedInsert_perm le a (insertionSort le t)).trans (ih.cons a)

theorem insertionSort_mem (le : α → α → Bool) (l : List α) (x : α) :
    x ∈ insertionSort le l ↔ x ∈ l :=
  (insertionSort_permutation le l).mem_iff

theorem insertionSort_len (le : α → α → Bool) (l : List α) :
    (insertionSort le l).length = l.length :=
  (insertionSort_permutation le l).length_eq

theorem orderedInsert_pairwise (le : α → α → Bool)
    (htot : ∀ x y, le x y = true ∨ le y x = true)
    (htrans : ∀ x y z, le x y = true → le y z = true → le x z = true)
    (a : α) (l : List α) (h : List.Pairwise (fun x y => le x y = true) l) :
    List.Pairwise (fun x y => le x y = true) (orderedInsert le a l) := by
  induction l with
  | nil => simp [orderedInsert]
  | cons b t ih =>
    rw [List.pairwise_cons] at h
    obtain ⟨hb, ht⟩ := h
    unfold orderedInsert
    by_cases hab : le a b = true
    · simp only [hab, if_true]
      rw [List.pairwise_cons]
      refine ⟨?_, List.pairwise_cons.mpr ⟨hb, ht⟩⟩
      intro y hy
      rcases List.mem_cons.mp hy with rfl | hy
      · exact hab
      · exact htrans a b y hab (hb y hy)
    · simp only [hab, if_false, Bool.false_eq_true]
      rw [List.pairwise_cons]
      refine ⟨?_, ih ht⟩
      intro y hy
      have hy' : y ∈ a :: t := (orderedInsert_perm le a t).mem_iff.mp hy
      rcases List.mem_cons.mp hy' with h'' | hy''
      · rw [h'']
        rcases htot a b with h' | h'
        · exact absurd h' hab
        · exact h'
      · exact hb y hy''

theorem insertionSort_sorted (le : α → α → Bool)
    (htot : ∀ x y, le x y = true ∨ le y x = true)
    (htrans : ∀ x y z, le x y = true → le y z = true → le x z = true)
    (l : List α) :
    List.Pairwise (fun x y => le x y = true) (insertionSort le l) := by
  induction l with
  | nil => simp [insertionSort]
  | cons a t ih => exact orderedInsert_pairwise le htot htrans a _ ih

/-! ## `replaceFirst` and `find?` lemmas -/

theorem replaceFirst_map (g : α → β) (p : α → Bool) (f : α → α) (l : List α)
    (h : ∀ x, p x = true → g (f x) = g x) :
    (replaceFirst p f l).map g = l.map g := by
  induction l with
  | nil => rfl
  | cons x xs ih =>
    unfold replaceFirst
    by_cases hx : p x = true
    · simp [hx, h x hx]
    · simp [hx, ih]

theorem find?_replaceFirst_hit (p : α → Bool) (f : α → α) (l : List α)
    (h : ∀ x, p x = true → p (f x) = true) :
    (replaceFirst p f l).find? p = (l.find? p).map f := by
  induction l with
  | nil => rfl
  | cons x xs ih =>
    unfold replaceFirst
    by_cases hx : p x = true
    · simp [List.find?_cons, hx, h x hx]
    · simp [List.find?_cons, hx, ih]

theorem find?_replaceFirst_other (p q : α → Bool) (f : α → α) (l : List α)
    (h : ∀ x, p x = true → q x = false ∧ q (f x) = false) :
    (replaceFirst p f l).find? q = l.find? q := by
  induction l with
  | nil => rfl
  | cons x xs ih =>
    unfold replaceFirst
    by_cases hx : p x = true
    · obtain ⟨h1, h2⟩ := h x hx
      simp [List.find?_cons, hx, h1, h2]
    · by_cases hq : q x = true
      · simp [List.find?_cons, hx, hq]
      · simp [List.find?_cons, hx, hq, ih]

/-! ## Ordering-comparison lemmas -/

theorem ordSwap_swap (o : Ordering) : o.swap.swap = o := by cases o <;> rfl

theorem natCmp_self (m : Nat) : natCmp m m = Ordering.eq := by simp [natCmp]

theorem natCmp_lt_iff {m n : Nat} : natCmp m n = Ordering.lt ↔ m < n := by
  unfold natCmp
  by_cases h1 : m < n
  · simp [h1]
  · by_cases h2 : n < m <;> simp [h1, h2]

theorem natCmp_eq_iff {m n : Nat} : natCmp m n = Ordering.eq ↔ m = n := by
  unfold natCmp
  by_cases h1 : m < n
  · simp [h1]; omega
  · by_cases h2 : n < m <;> simp [h1, h2] <;> omega

theorem natCmp_swap (m n : Nat) : natCmp n m = (natCmp m n).swap := by
  unfold natCmp
  rcases Nat.lt_trichotomy m n with h | h | h
  · have h1 : ¬ n < m := by omega
    simp [h, h1, Ordering.swap]
  · simp [h, Ordering.swap]
  · have h1 : ¬ m < n := by omega
    simp [h, h1, Ordering.swap]

theorem charListCmp_self (x : List Char) : charListCmp x x = Ordering.eq := by
  induction x with
  | nil => rfl
  | cons c cs ih => simp [charListCmp, natCmp_self, ih]

theorem charListCmp_swap (x : List Char) : ∀ (y : List Char),
    charListCmp y x = (charListCmp x y).swap := by
  induction x with
  | nil => intro y; cases y <;> simp [charListCmp, Ordering.swap]
  | cons c cs ih =>
    intro y
    cases y with
    | nil => simp [charListCmp, Ordering.swap]
    | cons d ds =>
      simp only [charListCmp]
      rw [natCmp_swap c.toNat d.toNat]
      cases h : natCmp c.toNat d.toNat <;> simp [h, Ordering.swap, ih ds]

theorem charListCmp_eq_left : ∀ (x y : List Char),
    charListCmp x y = Ordering.eq → ∀ z, charListCmp x z = charListCmp y z
  | [], [], _, _ => rfl
  | [], _ :: _, h, _ => by simp [charListCmp] at h
  | _ :: _, [], h, _ => by simp [charListCmp] at h
  | c :: cs, d :: ds, h, z => by
    cases hcd : natCmp c.toNat d.toNat with
    | lt => rw [charListCmp, hcd] at h; exact absurd h (by simp)
    | gt => rw [charListCmp, hcd] at h; exact absurd h (by simp)
    | eq =>
      have h' : charListCmp cs ds = Ordering.eq := by rwa [charListCmp, hcd] at h
      have hce : c.toNat = d.toNat := natCmp_eq_iff.mp hcd
      cases z with
      | nil => rfl
      | cons e es =>
        simp only [charListCmp, hce]
        cases h'' : natCmp d.toNat e.toNat
        · simp
        · simp [charListCmp_eq_left cs ds h' es]
        · simp

theorem charListCmp_eq_right {y z : List Char} (h : charListCmp y z = Ordering.eq)
    (x : List Char) : charListCmp x z = charListCmp x y := by
  have h' : charListCmp z y = Ordering.eq := by rw [charListCmp_swap y z, h]; rfl
  have e1 : charListCmp z x = charListCmp y x := charListCmp_eq_left z y h' x
  rw [charListCmp_swap z x, e1, ← charListCmp_swap y x]

theorem charListCmp_lt_trans : ∀ (x y z : List Char),
    charListCmp x y = Ordering.lt → charListCmp y z = Ordering.lt →
    charListCmp x z = Ordering.lt
  | [], y, z, h1, h2 => by
    cases y with
    | nil => simp [charListCmp] at h1
    | cons b bs =>
      cases z with
      | nil => simp [charListCmp] at h2
      | cons c cs => simp [charListCmp]
  | a :: as, y, z, h1, h2 => by
    cases y with
    | nil => simp [charListCmp] at h1
    | cons b bs =>
      cases z with
      | nil => simp [charListCmp] at h2
      | cons c cs =>
        rw [charListCmp] at h1 h2 ⊢
        cases hab : natCmp a.toNat b.toNat with
        | gt => rw [hab] at h1; exact absurd h1 (by simp)
        | lt =>
          rw [hab] at h1
          cases hbc : natCmp b.toNat c.toNat with
          | gt => rw [hbc] at h2; exact absurd h2 (by simp)
          | lt =>
            have : natCmp a.toNat c.toNat = Ordering.lt := by
              rw [natCmp_lt_iff] at hab hbc ⊢; omega
            rw [this]
          | eq =>
            have hbce : b.toNat = c.toNat := natCmp_eq_iff.mp hbc
            rw [← hbce, hab]
        | eq =>
          rw [hab] at h1
          have habe : a.toNat = b.toNat := natCmp_eq_iff.mp hab
          cases hbc : natCmp b.toNat c.toNat with
          | gt => rw [hbc] at h2; exact absurd h2 (by simp)
          | lt => rw [habe, hbc]
          | eq =>
            rw [hbc] at h2
            rw [habe, hbc]
            exact charListCmp_lt_trans as bs cs h1 h2

/-! ## Token- and key-level comparison lemmas -/

theorem tokCmp_refl (a : NToken) : tokCmp a a = some Ordering.eq := by
  cases a <;> simp [tokCmp, strCmp, natCmp_self, charListCmp_self]

theorem tokCmp_swap (a b : NToken) : tokCmp b a = (tokCmp a b).map Ordering.swap := by
  cases a with
  | num m =>
    cases b with
    | num n =>
      show some (natCmp n m) = some ((natCmp m n).swap)
      rw [natCmp_swap m n]
    | str t => rfl
  | str s =>
    cases b with
    | num n => rfl
    | str t =>
      show some (charListCmp t.data s.data) = some ((charListCmp s.data t.data).swap)
      rw [charListCmp_swap s.data t.data]

theorem tokCmp_lt_trans {a b c : NToken} (h1 : tokCmp a b = some Ordering.lt)
    (h2 : tokCmp b c = some Ordering.lt) : tokCmp a c = some Ordering.lt := by
  cases a with
  | num m =>
    cases b with
    | num n =>
      cases c with
      | num k =>
        simp only [tokCmp, Option.some_inj] at h1 h2 ⊢
        rw [natCmp_lt_iff] at h1 h2 ⊢
        omega
      | str t => simp [tokCmp] at h2
    | str s => simp [tokCmp] at h1
  | str s =>
    cases b with
    | num n => simp [tokCmp] at h1
    | str t =>
      cases c with
      | num k => simp [tokCmp] at h2
      | str u =>
        simp only [tokCmp, Option.some_inj, strCmp] at h1 h2 ⊢
        exact charListCmp_lt_trans _ _ _ h1 h2

theorem tokCmp_eq_left {a b : NToken} (h : tokCmp a b = some Ordering.eq)
    (c : NToken) : tokCmp a c = tokCmp b c := by
  cases a with
  | num m =>
    cases b with
    | num n =>
      have : m = n := by
        simp only [tokCmp, Option.some_inj] at h
        exact natCmp_eq_iff.mp h
      rw [this]
    | str s => simp [tokCmp] at h
  | str s =>
    cases b with
    | num n => simp [tokCmp] at h
    | str t =>
      have h' : charListCmp s.data t.data = Ordering.eq := by
        simpa [tokCmp, strCmp] using h
      cases c with
      | num k => rfl
      | str u => simp [tokCmp, strCmp, charListCmp_eq_left s.data t.data h' u.data]

theorem tokCmp_eq_right {b c : NToken} (h : tokCmp b c = some Ordering.eq)
    (a : NToken) : tokCmp a c = tokCmp a b := by
  have h' : tokCmp c b = some Ordering.eq := by rw [tokCmp_swap b c, h]; rfl
  have e1 : tokCmp c a = tokCmp b a := tokCmp_eq_left h' a
  rw [tokCmp_swap c a, e1, ← tokCmp_swap b a]

theorem tokCmp_isSome_kind {a c : NToken} (h : a.isNum = c.isNum) :
    (tokCmp a c).isSome = true := by
  cases a <;> cases c <;> simp [NToken.isNum] at h ⊢ <;> simp [tokCmp]

theorem keyCmp_swap : ∀ (x y : List NToken), keyCmp y x = (keyCmp x y).map Ordering.swap
  | [], [] => rfl
  | [], _ :: _ => rfl
  | _ :: _, [] => rfl
  | a :: as, b :: bs => by
    cases h : tokCmp a b with
    | none =>
      have hs : tokCmp b a = none := by rw [tokCmp_swap a b, h]; rfl
      simp only [keyCmp]
      rw [h, hs]
      rfl
    | some o =>
      cases o with
      | lt =>
        have hs : tokCmp b a = some Ordering.gt := by rw [tokCmp_swap a b, h]; rfl
        simp only [keyCmp]
        rw [h, hs]
        rfl
      | gt =>
        have hs : tokCmp b a = some Ordering.lt := by rw [tokCmp_swap a b, h]; rfl
        simp only [keyCmp]
        rw [h, hs]
        rfl
      | eq =>
        have hs : tokCmp b a = some Ordering.eq := by rw [tokCmp_swap a b, h]; rfl
        simp only [keyCmp]
        rw [h, hs]
        exact keyCmp_swap as bs

theorem keyCmp_lt_trans : ∀ (x y z : List NToken), keyCmp x y = some Ordering.lt →
    keyCmp y z = some Ordering.lt → keyCmp x z = some Ordering.lt
  | [], y, z, h1, h2 => by
    cases y with
    | nil => simp [keyCmp] at h1
    | cons b bs =>
      cases z with
      | nil => simp [keyCmp] at h2
      | cons c cs => simp [keyCmp]
  | a :: as, y, z, h1, h2 => by
    cases y with
    | nil => simp [keyCmp] at h1
    | cons b bs =>
      cases z with
      | nil => simp [keyCmp] at h2
      | cons c cs =>
        rw [keyCmp] at h1 h2 ⊢
        cases hab : tokCmp a b with
        | none => rw [hab] at h1; exact absurd h1 (by simp)
        | some o1 =>
          rw [hab] at h1
          cases o1 with
          | gt => exact absurd h1 (by simp)
          | lt =>
            cases hbc : tokCmp b c with
            | none => rw [hbc] at h2; exact absurd h2 (by simp)
            | some o2 =>
              rw [hbc] at h2
              cases o2 with
              | gt => exact absurd h2 (by simp)
              | lt =>
                have : tokCmp a c = some Ordering.lt := tokCmp_lt_trans hab hbc
                rw [this]
              | eq =>
                have : tokCmp a c = tokCmp a b := tokCmp_eq_right hbc a
                rw [this, hab]
          | eq =>
            cases hbc : tokCmp b c with
            | none => rw [hbc] at h2; exact absurd h2 (by simp)
            | some o2 =>
              rw [hbc] at h2
              have hac : tokCmp a c = tokCmp b c := tokCmp_eq_left hab c
              cases o2 with
              | gt => exact absurd h2 (by simp)
              | lt => rw [hac, hbc]
              | eq =>
                rw [hac, hbc]
                exact keyCmp_lt_trans as bs cs h1 h2

theorem keyCmp_eq_left : ∀ (x y : List NToken), keyCmp x y = some Ordering.eq →
    ∀ z, keyCmp x z = keyCmp y z
  | [], [], _, _ => rfl
  | [], _ :: _, h, _ => by simp [keyCmp] at h
  | _ :: _, [], h, _ => by simp [keyCmp] at h
  | a :: as, b :: bs, h, z => by
    cases hab : tokCmp a b with
    | none => rw [keyCmp, hab] at h; exact absurd h (by simp)
    | some o =>
      cases o with
      | lt => rw [keyCmp, hab] at h; exact absurd h (by simp)
      | gt => rw [keyCmp, hab] at h; exact absurd h (by simp)
      | eq =>
        have h' : keyCmp as bs = some Ordering.eq := by rwa [keyCmp, hab] at h
        cases z with
        | nil => rfl
        | cons c cs =>
          have hac : tokCmp a c = tokCmp b c := tokCmp_eq_left hab c
          rw [keyCmp, keyCmp, hac]
          cases hbc : tokCmp b c with
          | none => rfl
          | some o' =>
            cases o' with
            | lt => rfl
            | gt => rfl
            | eq => exact keyCmp_eq_left as bs h' cs

theorem keyCmp_eq_right {y z : List NToken} (h : keyCmp y z = some Ordering.eq)
    (x : List NToken) : keyCmp x z = keyCmp x y := by
  have h' : keyCmp z y = some Ordering.eq := by rw [keyCmp_swap y z, h]; rfl
  have e1 : keyCmp z x = keyCmp y x := keyCmp_eq_left z y h' x
  rw [keyCmp_swap z x, e1, ← keyCmp_swap y x]

theorem keyCmp_isSome : ∀ (b : Bool) (x y : List NToken), AltK b x → AltK b y →
    (keyCmp x y).isSome = true
  | _, [], [], _, _ => rfl
  | _, [], _ :: _, _, _ => rfl
  | _, _ :: _, [], _, _ => rfl
  | b, a :: as, c :: cs, hx, hy => by
    have hx' : a.isNum = b ∧ AltK (!b) as := hx
    have hy' : c.isNum = b ∧ AltK (!b) cs := hy
    have hkind : a.isNum = c.isNum := by rw [hx'.1, hy'.1]
    have hsome := tokCmp_isSome_kind hkind
    cases h : tokCmp a c with
    | none => rw [h] at hsome; simp at hsome
    | some o =>
      cases o with
      | lt => simp [keyCmp, h]
      | gt => simp [keyCmp, h]
      | eq =>
        rw [keyCmp, h]
        exact keyCmp_isSome (!b) as cs hx'.2 hy'.2

theorem keyCmp_self_append : ∀ (x t : List NToken), t ≠ [] →
    keyCmp x (x ++ t) = some Ordering.lt
  | [], t, ht => by
    cases t with
    | nil => exact absurd rfl ht
    | cons c cs => simp [keyCmp]
  | a :: as, t, ht => by
    rw [List.cons_append, keyCmp, tokCmp_refl]
    exact keyCmp_self_append as t ht

theorem keyLe_total_of_alt {b : Bool} {x y : List NToken}
    (hx : AltK b x) (hy : AltK b y) : keyLe x y = true ∨ keyLe y x = true := by
  have hs := keyCmp_isSome b x y hx hy
  cases h : keyCmp x y with
  | none => rw [h] at hs; simp at hs
  | some o =>
    cases o with
    | lt => left; simp [keyLe, h]
    | eq => left; simp [keyLe, h]
    | gt =>
      right
      have h' : keyCmp y x = some Ordering.lt := by rw [keyCmp_swap x y, h]; rfl
      simp [keyLe, h']

theorem keyLe_trans_of_alt {b : Bool} {x y z : List NToken}
    (hx : AltK b x) (hy : AltK b y) (hz : AltK b z)
    (h1 : keyLe x y = true) (h2 : keyLe y z = true) : keyLe x z = true := by
  have hs1 := keyCmp_isSome b x y hx hy
  have hs2 := keyCmp_isSome b y z hy hz
  cases hxy : keyCmp x y with
  | none => rw [hxy] at hs1; simp at hs1
  | some o1 =>
    cases hyz : keyCmp y z with
    | none => rw [hyz] at hs2; simp at hs2
    | some o2 =>
      cases o1 with
      | gt => rw [keyLe, hxy] at h1; exact absurd h1 (by simp)
      | eq =>
        have : keyCmp x z = keyCmp y z := keyCmp_eq_left x y hxy z
        rw [keyLe, this, hyz]
        rw [keyLe, hyz] at h2
        exact h2
      | lt =>
        cases o2 with
        | gt => rw [keyLe, hyz] at h2; exact absurd h2 (by simp)
        | eq =>
          have : keyCmp x z = keyCmp x y := keyCmp_eq_right hyz x
          rw [keyLe, this, hxy]
        | lt =>
          have : keyCmp x z = some Ordering.lt := keyCmp_lt_trans x y z hxy hyz
          rw [keyLe, this]

/-! ## Alternation structure of `natural_key` -/

theorem pyIsDigit_mk_false {l : List Char} (h : ∀ c ∈ l, c.isDigit = false) :
    pyIsDigit (String.mk l) = false := by
  cases l with
  | nil => rfl
  | cons c cs =>
    have hc := h c (List.mem_cons_self c cs)
    simp [pyIsDigit, hc]

theorem pyIsDigit_mk_true {l : List Char} (hne : l ≠ [])
    (h : ∀ c ∈ l, c.isDigit = true) : pyIsDigit (String.mk l) = true := by
  cases l with
  | nil => exact absurd rfl hne
  | cons c cs =>
    simp only [pyIsDigit, Bool.and_eq_true]
    constructor
    · simp
    · exact List.all_eq_true.mpr h

theorem split_alt : ∀ (n : Nat) (cs : List Char), cs.length ≤ n →
    ((∀ acc, (∀ c ∈ acc, c.isDigit = false) → AltS false (splitT acc cs)) ∧
     (∀ tc dacc, (∀ c ∈ tc, c.isDigit = false) → dacc ≠ [] →
       (∀ c ∈ dacc, c.isDigit = true) → AltS false (splitD tc dacc cs))) := by
  intro n
  induction n with
  | zero =>
    intro cs hcs
    have hnil : cs = [] := List.length_eq_zero.mp (Nat.le_zero.mp hcs)
    subst hnil
    constructor
    · intro acc hacc
      refine ⟨pyIsDigit_mk_false ?_, trivial⟩
      intro c hc
      exact hacc c (List.mem_reverse.mp hc)
    · intro tc dacc h1 h2 h3
      refine ⟨pyIsDigit_mk_false h1, pyIsDigit_mk_true ?_ ?_, pyIsDigit_mk_false ?_, trivial⟩
      · simpa using h2
      · intro c hc
        exact h3 c (List.mem_reverse.mp hc)
      · intro c hc
        simp at hc
  | succ n ih =>
    intro cs hcs
    cases cs with
    | nil =>
      constructor
      · intro acc hacc
        refine ⟨pyIsDigit_mk_false ?_, trivial⟩
        intro c hc
        exact hacc c (List.mem_reverse.mp hc)
      · intro tc dacc h1 h2 h3
        refine ⟨pyIsDigit_mk_false h1, pyIsDigit_mk_true ?_ ?_, pyIsDigit_mk_false ?_, trivial⟩
        · simpa using h2
        · intro c hc
          exact h3 c (List.mem_reverse.mp hc)
        · intro c hc
          simp at hc
    | cons c cs' =>
      have hlen : cs'.length ≤ n := by
        simp only [List.length_cons] at hcs
        omega
      constructor
      · intro acc hacc
        by_cases hd : c.isDigit = true
        · rw [splitT, if_pos hd]
          refine (ih cs' hlen).2 acc.reverse [c] ?_ (by simp) ?_
          · intro x hx
            exact hacc x (List.mem_reverse.mp hx)
          · intro x hx
            rw [List.mem_singleton.mp hx]
            exact hd
        · rw [splitT, if_neg hd]
          refine (ih cs' hlen).1 (c :: acc) ?_
          intro x hx
          rcases List.mem_cons.mp hx with h' | h'
          · rw [h']
            simpa using hd
          · exact hacc x h'
      · intro tc dacc h1 h2 h3
        by_cases hd : c.isDigit = true
        · rw [splitD, if_pos hd]
          refine (ih cs' hlen).2 tc (c :: dacc) h1 (by simp) ?_
          intro x hx
          rcases List.mem_cons.mp hx with h' | h'
          · rw [h']; exact hd
          · exact h3 x h'
        · rw [splitD, if_neg hd]
          refine ⟨pyIsDigit_mk_false h1, pyIsDigit_mk_true ?_ ?_, ?_⟩
          · simpa using h2
          · intro x hx
            exact h3 x (List.mem_reverse.mp hx)
          · have := (ih cs' hlen).1 [c] ?_
            · exact this
            · intro x hx
              rw [List.mem_singleton.mp hx]
              simpa using hd

theorem altS_map : ∀ (b : Bool) (l : List String), AltS b l →
    AltK b (l.map fun t =>
      if pyIsDigit t then NToken.num (pyInt t) else NToken.str (strLower t))
  | _, [], _ => trivial
  | b, t :: ts, h => by
    have h' : pyIsDigit t = b ∧ AltS (!b) ts := h
    refine ⟨?_, altS_map (!b) ts h'.2⟩
    by_cases hd : pyIsDigit t = true
    · simp [hd, NToken.isNum, ← h'.1]
    · simp only [Bool.not_eq_true] at hd
      simp [hd, NToken.isNum, ← h'.1]

theorem natural_key_alt (s : String) : AltK false (natural_key s) := by
  unfold natural_key reSplitDigits
  refine altS_map false _ ((split_alt s.data.length s.data le_rfl).1 [] ?_)
  intro c hc
  simp at hc

theorem AltK_get : ∀ (b : Bool) (l : List NToken), AltK b l →
    ∀ (i : Nat) (h : i < l.length),
    (l.get ⟨i, h⟩).isNum = (if i % 2 = 0 then b else !b)
  | b, t :: ts, ha, 0, _ => by
    have ha' : t.isNum = b ∧ AltK (!b) ts := ha
    simpa using ha'.1
  | b, t :: ts, ha, i + 1, h => by
    have ha' : t.isNum = b ∧ AltK (!b) ts := ha
    have ih := AltK_get (!b) ts ha'.2 i (by simpa using Nat.lt_of_succ_lt_succ h)
    show (ts.get ⟨i, _⟩).isNum = _
    rw [ih]
    by_cases hi : i % 2 = 0
    · have : (i + 1) % 2 ≠ 0 := by omega
      simp [hi, this]
    · have : (i + 1) % 2 = 0 := by omega
      simp [hi, this, Bool.not_not]

theorem keyLe_nk_total (s t : String) :
    keyLe (natural_key s) (natural_key t) = true ∨
    keyLe (natural_key t) (natural_key s) = true := by
  exact keyLe_total_of_alt (natural_key_alt s) (natural_key_alt t)

theorem keyLe_nk_trans (s t u : String)
    (h1 : keyLe (natural_key s) (natural_key t) = true)
    (h2 : keyLe (natural_key t) (natural_key u) = true) :
    keyLe (natural_key s) (natural_key u) = true :=
  keyLe_trans_of_alt (natural_key_alt s) (natural_key_alt t) (natural_key_alt u) h1 h2

/-! ## Store lookup and upsert lemmas -/

theorem courseLookup_isSome_iff (db : DB) (p : String) :
    (courseLookup db p).isSome = true ↔ p ∈ coursePaths db := by
  unfold courseLookup coursePaths
  rw [List.find?_isSome]
  constructor
  · rintro ⟨c, hc, he⟩
    refine List.mem_map.mpr ⟨c, hc, ?_⟩
    simpa using he
  · intro h
    obtain ⟨c, hc, he⟩ := List.mem_map.mp h
    exact ⟨c, hc, by simp [he]⟩

theorem lessonLookup_isSome_iff (db : DB) (p : String) :
    (lessonLookup db p).isSome = true ↔ p ∈ lessonPaths db := by
  unfold lessonLookup lessonPaths
  rw [List.find?_isSome]
  constructor
  · rintro ⟨c, hc, he⟩
    refine List.mem_map.mpr ⟨c, hc, ?_⟩
    simpa using he
  · intro h
    obtain ⟨c, hc, he⟩ := List.mem_map.mp h
    exact ⟨c, hc, by simp [he]⟩

theorem courseLookup_path {db : DB} {p : String} {e : Course}
    (h : courseLookup db p = some e) : e.path = p := by
  have := List.find?_some h
  simpa using this

theorem lessonLookup_path {db : DB} {p : String} {e : Lesson}
    (h : lessonLookup db p = some e) : e.path = p := by
  have := List.find?_some h
  simpa using this

theorem upsert_course_frame (s : Session) (cd : PyPath) :
    (upsert_course s cd).2.db.lessons = s.db.lessons ∧
    (upsert_course s cd).2.db.nextLessonId = s.db.nextLessonId ∧
    (upsert_course s cd).2.db.clock = s.db.clock := by
  simp only [upsert_course]
  cases h : courseLookup s.db (pathStr cd) with
  | none => simp
  | some e => by_cases ht : e.title = pathName cd <;> simp [ht]

theorem upsert_course_paths (s : Session) (cd : PyPath) :
    coursePaths (upsert_course s cd).2.db =
      coursePaths s.db ++
        (if (courseLookup s.db (pathStr cd)).isSome then [] else [pathStr cd]) := by
  simp only [upsert_course]
  cases h : courseLookup s.db (pathStr cd) with
  | none => simp [coursePaths]
  | some e =>
    by_cases ht : e.title = pathName cd
    · simp [ht, coursePaths]
    · simp only [ht, if_neg, Option.isSome_some, if_true, List.append_nil,
        ite_false]
      simp only [coursePaths]
      exact replaceFirst_map Course.path _ _ _ (fun x _ => rfl)

theorem upsert_course_sig (s : Session) (cd : PyPath) :
    (upsert_course s cd).2.db.courses.map courseSig =
      s.db.courses.map courseSig ++
        (if (courseLookup s.db (pathStr cd)).isSome then []
         else [(s.db.nextCourseId, pathStr cd, s.db.clock)]) := by
  simp only [upsert_course]
  cases h : courseLookup s.db (pathStr cd) with
  | none => simp [courseSig]
  | some e =>
    by_cases ht : e.title = pathName cd
    · simp [ht]
    · simp only [ht, Option.isSome_some, if_true, List.append_nil, ite_false]
      exact replaceFirst_map courseSig _ _ _ (fun x _ => rfl)

theorem upsert_course_mem (s : Session) (cd : PyPath) :
    pathStr cd ∈ coursePaths (upsert_course s cd).2.db := by
  rw [upsert_course_paths]
  cases h : (courseLookup s.db (pathStr cd)).isSome with
  | true =>
    exact List.mem_append_left _ ((courseLookup_isSome_iff s.db (pathStr cd)).mp h)
  | false =>
    refine List.mem_append_right _ ?_
    simp [h]

theorem upsert_course_coursePaths_mono {q : String} (s : Session) (cd : PyPath)
    (h : q ∈ coursePaths s.db) : q ∈ coursePaths (upsert_course s cd).2.db := by
  rw [upsert_course_paths]
  exact List.mem_append_left _ h

theorem upsert_course_lessonPaths (s : Session) (cd : PyPath) :
    lessonPaths (upsert_course s cd).2.db = lessonPaths s.db := by
  unfold lessonPaths
  rw [(upsert_course_frame s cd).1]

theorem upsert_lesson_frame (s : Session) (cid : Nat) (sec : String)
    (vp : PyPath) (ok : String) :
    (upsert_lesson s cid sec vp ok).2.db.courses = s.db.courses ∧
    (upsert_lesson s cid sec vp ok).2.db.nextCourseId = s.db.nextCourseId ∧
    (upsert_lesson s cid sec vp ok).2.db.clock = s.db.clock := by
  simp only [upsert_lesson]
  cases h : lessonLookup s.db (pathStr vp) with
  | none => simp
  | some e => simp

theorem upsert_lesson_coursePaths (s : Session) (cid : Nat) (sec : String)
    (vp : PyPath) (ok : String) :
    coursePaths (upsert_lesson s cid sec vp ok).2.db = coursePaths s.db := by
  unfold coursePaths
  rw [(upsert_lesson_frame s cid sec vp ok).1]

theorem upsert_lesson_paths (s : Session) (cid : Nat) (sec : String)
    (vp : PyPath) (ok : String) :
    lessonPaths (upsert_lesson s cid sec vp ok).2.db =
      lessonPaths s.db ++
        (if (lessonLookup s.db (pathStr vp)).isSome then [] else [pathStr vp]) := by
  simp only [upsert_lesson]
  cases h : lessonLookup s.db (pathStr vp) with
  | none => simp [lessonPaths]
  | some e =>
    simp only [Option.isSome_some, if_true, List.append_nil]
    simp only [lessonPaths]
    exact replaceFirst_map Lesson.path _ _ _ (fun x _ => rfl)

theorem upsert_lesson_sig (s : Session) (cid : Nat) (sec : String)
    (vp : PyPath) (ok : String) :
    (upsert_lesson s cid sec vp ok).2.db.lessons.map lessonSig =
      s.db.lessons.map lessonSig ++
        (if (lessonLookup s.db (pathStr vp)).isSome then []
         else [(s.db.nextLessonId, pathStr vp, s.db.clock)]) := by
  simp only [upsert_lesson]
  cases h : lessonLookup s.db (pathStr vp) with
  | none => simp [lessonSig]
  | some e =>
    simp only [Option.isSome_some, if_true, List.append_nil]
    exact replaceFirst_map lessonSig _ _ _ (fun x _ => rfl)

theorem upsert_lesson_mem (s : Session) (cid : Nat) (sec : String)
    (vp : PyPath) (ok : String) :
    pathStr vp ∈ lessonPaths (upsert_lesson s cid sec vp ok).2.db := by
  rw [upsert_lesson_paths]
  cases h : (lessonLookup s.db (pathStr vp)).isSome with
  | true =>
    exact List.mem_append_left _ ((lessonLookup_isSome_iff s.db (pathStr vp)).mp h)
  | false =>
    refine List.mem_append_right _ ?_
    simp [h]

theorem upsert_lesson_lessonPaths_mono {q : String} (s : Session) (cid : Nat)
    (sec : String) (vp : PyPath) (ok : String)
    (h : q ∈ lessonPaths s.db) : q ∈ lessonPaths (upsert_lesson s cid sec vp ok).2.db := by
  rw [upsert_lesson_paths]
  exact List.mem_append_left _ h

theorem upsert_lesson_lookup_self (s : Session) (cid : Nat) (sec : String)
    (vp : PyPath) (ok : String) :
    lessonLookup (upsert_lesson s cid sec vp ok).2.db (pathStr vp) =
      some (upsert_lesson s cid sec vp ok).1 := by
  simp only [upsert_lesson]
  cases h : lessonLookup s.db (pathStr vp) with
  | none =>
    simp only [lessonLookup]
    rw [List.find?_append]
    unfold lessonLookup at h
    rw [h]
    simp
  | some e =>
    simp only [lessonLookup]
    rw [find?_replaceFirst_hit (fun l => l.path == pathStr vp)
      (fun l => { l with course_id := cid, sect := sec,
                         title := pyStem (pathName vp), order_key := ok })
      s.db.lessons (fun x hx => hx)]
    unfold lessonLookup at h
    rw [h]
    rfl

theorem upsert_lesson_lookup_other {q : String} (s : Session) (cid : Nat)
    (sec : String) (vp : PyPath) (ok : String) (hq : q ≠ pathStr vp) :
    lessonLookup (upsert_lesson s cid sec vp ok).2.db q = lessonLookup s.db q := by
  simp only [upsert_lesson]
  cases h : lessonLookup s.db (pathStr vp) with
  | none =>
    simp only [lessonLookup]
    rw [List.find?_append]
    cases hfq : s.db.lessons.find? (fun l => l.path == q) with
    | some r => rfl
    | none =>
      simp only [Option.or]
      rw [List.find?_cons]
      have : (({ id := s.db.nextLessonId, course_id := cid, path := pathStr vp,
                 sect := sec, title := pyStem (pathName vp), order_key := ok,
                 created_at := s.db.clock, updated_at := s.db.clock } : Lesson).path == q) = false := by
        simp
        exact fun h' => hq h'.symm
      rw [this]
      rfl
  | some e =>
    simp only [lessonLookup]
    refine find?_replaceFirst_other _ _ _ _ ?_
    intro x hx
    have hxp : x.path = pathStr vp := by simpa using hx
    constructor
    · simp [hxp]
      exact fun h' => hq h'.symm
    · simp [hxp]
      exact fun h' => hq h'.symm

theorem upsert_lesson_result (s : Session) (cid : Nat) (sec : String)
    (vp : PyPath) (ok : String) :
    (upsert_lesson s cid sec vp ok).1.course_id = cid ∧
    (upsert_lesson s cid sec vp ok).1.sect = sec ∧
    (upsert_lesson s cid sec vp ok).1.title = pyStem (pathName vp) ∧
    (upsert_lesson s cid sec vp ok).1.order_key = ok ∧
    (upsert_lesson s cid sec vp ok).1.path = pathStr vp := by
  simp only [upsert_lesson]
  cases h : lessonLookup s.db (pathStr vp) with
  | none => simp
  | some e => simpa using lessonLookup_path h

/-! ## Scan-loop lemmas -/

theorem scanLessons_count (cid : Nat) (cd : PyPath) (items : List (String × PyPath)) :
    ∀ s, (scanLessons cid cd s items).1 = items.length := by
  induction items with
  | nil => intro s; rfl
  | cons it rest ih =>
    intro s
    simp only [scanLessons]
    rw [ih]
    simp

theorem scanLessons_frame (cid : Nat) (cd : PyPath) (items : List (String × PyPath)) :
    ∀ s, (scanLessons cid cd s items).2.db.courses = s.db.courses ∧
      (scanLessons cid cd s items).2.db.nextCourseId = s.db.nextCourseId ∧
      (scanLessons cid cd s items).2.db.clock = s.db.clock := by
  induction items with
  | nil => intro s; exact ⟨rfl, rfl, rfl⟩
  | cons it rest ih =>
    intro s
    simp only [scanLessons]
    obtain ⟨h1, h2, h3⟩ := ih (upsert_lesson s cid it.1 it.2 (pathStr (it.2.drop cd.length))).2
    obtain ⟨g1, g2, g3⟩ := upsert_lesson_frame s cid it.1 it.2 (pathStr (it.2.drop cd.length))
    exact ⟨h1.trans g1, h2.trans g2, h3.trans g3⟩

theorem scanLessons_coursePaths (cid : Nat) (cd : PyPath) (items : List (String × PyPath))
    (s : Session) :
    coursePaths (scanLessons cid cd s items).2.db = coursePaths s.db := by
  unfold coursePaths
  rw [(scanLessons_frame cid cd items s).1]

theorem scanLessons_paths (cid : Nat) (cd : PyPath) (items : List (String × PyPath)) :
    ∀ s, ∃ ext, lessonPaths (scanLessons cid cd s items).2.db = lessonPaths s.db ++ ext := by
  induction items with
  | nil => intro s; exact ⟨[], by simp [scanLessons]⟩
  | cons it rest ih =>
    intro s
    simp only [scanLessons]
    obtain ⟨ext2, h2⟩ := ih (upsert_lesson s cid it.1 it.2 (pathStr (it.2.drop cd.length))).2
    rw [h2, upsert_lesson_paths]
    exact ⟨_, by rw [List.append_assoc]⟩

theorem scanLessons_covers (cid : Nat) (cd : PyPath) (items : List (String × PyPath)) :
    ∀ s, ∀ it ∈ items, pathStr it.2 ∈ lessonPaths (scanLessons cid cd s items).2.db := by
  induction items with
  | nil => intro s it h; simp at h
  | cons hd rest ih =>
    intro s it hmem
    simp only [scanLessons]
    rcases List.mem_cons.mp hmem with h' | h'
    · obtain ⟨ext, hext⟩ := scanLessons_paths cid cd rest
        (upsert_lesson s cid hd.1 hd.2 (pathStr (hd.2.drop cd.length))).2
      rw [hext]
      refine List.mem_append_left _ ?_
      rw [h']
      exact upsert_lesson_mem s cid hd.1 hd.2 (pathStr (hd.2.drop cd.length))
    · exact ih _ it h'

theorem scanLessons_noinsert (cid : Nat) (cd : PyPath) (items : List (String × PyPath)) :
    ∀ s, (∀ it ∈ items, pathStr it.2 ∈ lessonPaths s.db) →
      lessonPaths (scanLessons cid cd s items).2.db = lessonPaths s.db := by
  induction items with
  | nil => intro s _; rfl
  | cons hd rest ih =>
    intro s hmem
    simp only [scanLessons]
    have hhd : pathStr hd.2 ∈ lessonPaths s.db := hmem hd (List.mem_cons_self hd rest)
    have hsome : (lessonLookup s.db (pathStr hd.2)).isSome = true :=
      (lessonLookup_isSome_iff s.db (pathStr hd.2)).mpr hhd
    have hstep : lessonPaths (upsert_lesson s cid hd.1 hd.2
        (pathStr (hd.2.drop cd.length))).2.db = lessonPaths s.db := by
      rw [upsert_lesson_paths, hsome]
      simp
    rw [ih _ ?_, hstep]
    intro it hit
    rw [hstep]
    exact hmem it (List.mem_cons_of_mem hd hit)

theorem scanCourses_stats (rp : PyPath) (l : List (String × FSNode)) :
    ∀ s, (scanCourses rp s l).1 =
      ⟨l.length, (l.map fun e => (iter_video_files (rp ++ [e.1]) e.2).length).sum⟩ := by
  induction l with
  | nil => intro s; rfl
  | cons e rest ih =>
    intro s
    simp only [scanCourses]
    rw [ih, scanLessons_count]
    simp [Nat.add_comm]

theorem scanCourses_coursePaths (rp : PyPath) (l : List (String × FSNode)) :
    ∀ s, ∃ ext, coursePaths (scanCourses rp s l).2.db = coursePaths s.db ++ ext := by
  induction l with
  | nil => intro s; exact ⟨[], by simp [scanCourses]⟩
  | cons e rest ih =>
    intro s
    simp only [scanCourses]
    obtain ⟨ext2, h2⟩ := ih (scanLessons (upsert_course s (rp ++ [e.1])).1.id (rp ++ [e.1])
      (upsert_course s (rp ++ [e.1])).2 (iter_video_files (rp ++ [e.1]) e.2)).2
    rw [h2, scanLessons_coursePaths, upsert_course_paths]
    exact ⟨_, by rw [List.append_assoc]⟩

theorem scanCourses_lessonPaths (rp : PyPath) (l : List (String × FSNode)) :
    ∀ s, ∃ ext, lessonPaths (scanCourses rp s l).2.db = lessonPaths s.db ++ ext := by
  induction l with
  | nil => intro s; exact ⟨[], by simp [scanCourses]⟩
  | cons e rest ih =>
    intro s
    simp only [scanCourses]
    obtain ⟨ext2, h2⟩ := ih (scanLessons (upsert_course s (rp ++ [e.1])).1.id (rp ++ [e.1])
      (upsert_course s (rp ++ [e.1])).2 (iter_video_files (rp ++ [e.1]) e.2)).2
    obtain ⟨ext1, h1⟩ := scanLessons_paths (upsert_course s (rp ++ [e.1])).1.id (rp ++ [e.1])
      (iter_video_files (rp ++ [e.1]) e.2) (upsert_course s (rp ++ [e.1])).2
    rw [h2, h1, upsert_course_lessonPaths]
    exact ⟨_, by rw [List.append_assoc]⟩

theorem scanCourses_courses_covers (rp : PyPath) (l : List (String × FSNode)) :
    ∀ s, ∀ e ∈ l, pathStr (rp ++ [e.1]) ∈ coursePaths (scanCourses rp s l).2.db := by
  induction l with
  | nil => intro s e h; simp at h
  | cons hd rest ih =>
    intro s e hmem
    simp only [scanCourses]
    rcases List.mem_cons.mp hmem with h' | h'
    · obtain ⟨ext, hext⟩ := scanCourses_coursePaths rp rest
        (scanLessons (upsert_course s (rp ++ [hd.1])).1.id (rp ++ [hd.1])
          (upsert_course s (rp ++ [hd.1])).2 (iter_video_files (rp ++ [hd.1]) hd.2)).2
      rw [hext, scanLessons_coursePaths]
      refine List.mem_append_left _ ?_
      rw [h']
      exact upsert_course_mem s (rp ++ [hd.1])
    · exact ih _ e h'

theorem scanCourses_lessons_covers (rp : PyPath) (l : List (String × FSNode)) :
    ∀ s, ∀ e ∈ l, ∀ it ∈ iter_video_files (rp ++ [e.1]) e.2,
      pathStr it.2 ∈ lessonPaths (scanCourses rp s l).2.db := by
  induction l with
  | nil => intro s e h; simp at h
  | cons hd rest ih =>
    intro s e hmem it hit
    simp only [scanCourses]
    rcases List.mem_cons.mp hmem with h' | h'
    · obtain ⟨ext, hext⟩ := scanCourses_lessonPaths rp rest
        (scanLessons (upsert_course s (rp ++ [hd.1])).1.id (rp ++ [hd.1])
          (upsert_course s (rp ++ [hd.1])).2 (iter_video_files (rp ++ [hd.1]) hd.2)).2
      rw [hext]
      refine List.mem_append_left _ ?_
      subst h'
      exact scanLessons_covers _ _ _ _ it hit
    · exact ih _ e h' it hit

theorem scanCourses_noinsert (rp : PyPath) (l : List (String × FSNode)) :
    ∀ s, (∀ e ∈ l, pathStr (rp ++ [e.1]) ∈ coursePaths s.db) →
      (∀ e ∈ l, ∀ it ∈ iter_video_files (rp ++ [e.1]) e.2,
        pathStr it.2 ∈ lessonPaths s.db) →
      coursePaths (scanCourses rp s l).2.db = coursePaths s.db ∧
      lessonPaths (scanCourses rp s l).2.db = lessonPaths s.db := by
  induction l with
  | nil => intro s _ _; exact ⟨rfl, rfl⟩
  | cons hd rest ih =>
    intro s hc hl
    simp only [scanCourses]
    have hhd : pathStr (rp ++ [hd.1]) ∈ coursePaths s.db :=
      hc hd (List.mem_cons_self hd rest)
    have hsome : (courseLookup s.db (pathStr (rp ++ [hd.1]))).isSome = true :=
      (courseLookup_isSome_iff s.db (pathStr (rp ++ [hd.1]))).mpr hhd
    have hstep1C : coursePaths (upsert_course s (rp ++ [hd.1])).2.db = coursePaths s.db := by
      rw [upsert_course_paths, hsome]
      simp
    have hstep1L : lessonPaths (upsert_course s (rp ++ [hd.1])).2.db = lessonPaths s.db :=
      upsert_course_lessonPaths s (rp ++ [hd.1])
    have hlessons : ∀ it ∈ iter_video_files (rp ++ [hd.1]) hd.2,
        pathStr it.2 ∈ lessonPaths (upsert_course s (rp ++ [hd.1])).2.db := by
      intro it hit
      rw [hstep1L]
      exact hl hd (List.mem_cons_self hd rest) it hit
    have hstep2L : lessonPaths (scanLessons (upsert_course s (rp ++ [hd.1])).1.id
        (rp ++ [hd.1]) (upsert_course s (rp ++ [hd.1])).2
        (iter_video_files (rp ++ [hd.1]) hd.2)).2.db = lessonPaths s.db := by
      rw [scanLessons_noinsert _ _ _ _ hlessons, hstep1L]
    have hstep2C : coursePaths (scanLessons (upsert_course s (rp ++ [hd.1])).1.id
        (rp ++ [hd.1]) (upsert_course s (rp ++ [hd.1])).2
        (iter_video_files (rp ++ [hd.1]) hd.2)).2.db = coursePaths s.db := by
      rw [scanLessons_coursePaths, hstep1C]
    have hrestC : ∀ e ∈ rest, pathStr (rp ++ [e.1]) ∈
        coursePaths (scanLessons (upsert_course s (rp ++ [hd.1])).1.id
          (rp ++ [hd.1]) (upsert_course s (rp ++ [hd.1])).2
          (iter_video_files (rp ++ [hd.1]) hd.2)).2.db := by
      intro e he
      rw [hstep2C]
      exact hc e (List.mem_cons_of_mem hd he)
    have hrestL : ∀ e ∈ rest, ∀ it ∈ iter_video_files (rp ++ [e.1]) e.2,
        pathStr it.2 ∈ lessonPaths (scanLessons (upsert_course s (rp ++ [hd.1])).1.id
          (rp ++ [hd.1]) (upsert_course s (rp ++ [hd.1])).2
          (iter_video_files (rp ++ [hd.1]) hd.2)).2.db := by
      intro e he it hit
      rw [hstep2L]
      exact hl e (List.mem_cons_of_mem hd he) it hit
    obtain ⟨ihC, ihL⟩ := ih _ hrestC hrestL
    exact ⟨ihC.trans hstep2C, ihL.trans hstep2L⟩

/-! ## Further structural helpers -/

theorem replaceFirst_length (p : α → Bool) (f : α → α) (l : List α) :
    (replaceFirst p f l).length = l.length := by
  induction l with
  | nil => rfl
  | cons x xs ih =>
    unfold replaceFirst
    by_cases hx : p x = true <;> simp [hx, ih]

theorem replaceFirst_eq_self (p : α → Bool) (f : α → α) :
    ∀ (l : List α) (e : α), l.find? p = some e → f e = e → replaceFirst p f l = l
  | [], e, h, _ => Option.noConfusion h
  | x :: xs, e, h, hfe => by
    unfold replaceFirst
    by_cases hx : p x = true
    · rw [List.find?_cons] at h
      simp only [hx] at h
      have : e = x := by simpa using h.symm
      subst this
      simp [hx, hfe]
    · have hb : p x = false := by simpa using hx
      rw [List.find?_cons] at h
      simp only [hb] at h
      simp [hx, replaceFirst_eq_self p f xs e h hfe]

theorem coursePaths_length (db : DB) : (coursePaths db).length = db.courses.length := by
  simp [coursePaths]

theorem lessonPaths_length (db : DB) : (lessonPaths db).length = db.lessons.length := by
  simp [lessonPaths]

theorem sig_ext_mem {α β : Type} {g : α → β} {l1 l2 : List α} {ext : List β}
    (h : l2.map g = l1.map g ++ ext) :
    ∀ x ∈ l1, ∃ y ∈ l2, g y = g x := by
  intro x hx
  have hm : g x ∈ l2.map g := by
    rw [h]
    exact List.mem_append_left _ (List.mem_map_of_mem g hx)
  obtain ⟨y, hy, he⟩ := List.mem_map.mp hm
  exact ⟨y, hy, he⟩

theorem scanLessons_sig (cid : Nat) (cd : PyPath) (items : List (String × PyPath)) :
    ∀ s, ∃ ext, (scanLessons cid cd s items).2.db.lessons.map lessonSig =
      s.db.lessons.map lessonSig ++ ext := by
  induction items with
  | nil => intro s; exact ⟨[], by simp [scanLessons]⟩
  | cons it rest ih =>
    intro s
    simp only [scanLessons]
    obtain ⟨ext2, h2⟩ := ih (upsert_lesson s cid it.1 it.2 (pathStr (it.2.drop cd.length))).2
    rw [h2, upsert_lesson_sig]
    exact ⟨_, by rw [List.append_assoc]⟩

theorem scanCourses_sigC (rp : PyPath) (l : List (String × FSNode)) :
    ∀ s, ∃ ext, (scanCourses rp s l).2.db.courses.map courseSig =
      s.db.courses.map courseSig ++ ext := by
  induction l with
  | nil => intro s; exact ⟨[], by simp [scanCourses]⟩
  | cons e rest ih =>
    intro s
    simp only [scanCourses]
    obtain ⟨ext2, h2⟩ := ih (scanLessons (upsert_course s (rp ++ [e.1])).1.id (rp ++ [e.1])
      (upsert_course s (rp ++ [e.1])).2 (iter_video_files (rp ++ [e.1]) e.2)).2
    rw [h2]
    rw [(scanLessons_frame (upsert_course s (rp ++ [e.1])).1.id (rp ++ [e.1])
      (iter_video_files (rp ++ [e.1]) e.2) (upsert_course s (rp ++ [e.1])).2).1]
    rw [upsert_course_sig]
    exact ⟨_, by rw [List.append_assoc]⟩

theorem scanCourses_sigL (rp : PyPath) (l : List (String × FSNode)) :
    ∀ s, ∃ ext, (scanCourses rp s l).2.db.lessons.map lessonSig =
      s.db.lessons.map lessonSig ++ ext := by
  induction l with
  | nil => intro s; exact ⟨[], by simp [scanCourses]⟩
  | cons e rest ih =>
    intro s
    simp only [scanCourses]
    obtain ⟨ext2, h2⟩ := ih (scanLessons (upsert_course s (rp ++ [e.1])).1.id (rp ++ [e.1])
      (upsert_course s (rp ++ [e.1])).2 (iter_video_files (rp ++ [e.1]) e.2)).2
    obtain ⟨ext1, h1⟩ := scanLessons_sig (upsert_course s (rp ++ [e.1])).1.id (rp ++ [e.1])
      (iter_video_files (rp ++ [e.1]) e.2) (upsert_course s (rp ++ [e.1])).2
    rw [h2, h1, (upsert_course_frame s (rp ++ [e.1])).1]
    exact ⟨_, by rw [List.append_assoc]⟩

theorem upsert_course_lessonLookup (s : Session) (cd : PyPath) (q : String) :
    lessonLookup (upsert_course s cd).2.db q = lessonLookup s.db q := by
  unfold lessonLookup
  rw [(upsert_course_frame s cd).1]

/-! ## Walker lemmas -/

theorem iter_video_files_length (cd : PyPath) (node : FSNode) :
    (iter_video_files cd node).length = countVideos cd node := by
  unfold iter_video_files countVideos
  rw [List.length_map, ← List.countP_eq_length_filter, ← List.countP_eq_length_filter]
  exact (insertionSort_permutation _ _).countP_eq _

theorem iter_video_files_mem {cd : PyPath} {node : FSNode} {sec : String} {p : PyPath} :
    (sec, p) ∈ iter_video_files cd node ↔
      sec = parentName p ∧ ∃ n, (p, n) ∈ descendants cd node ∧ isVideo p n = true := by
  unfold iter_video_files
  constructor
  · intro h
    obtain ⟨pr, hpr, heq⟩ := List.mem_map.mp h
    obtain ⟨hmem, hpred⟩ := List.mem_filter.mp hpr
    rw [insertionSort_mem] at hmem
    have h1 : parentName pr.1 = sec := congrArg Prod.fst heq
    have h2 : pr.1 = p := congrArg Prod.snd heq
    refine ⟨by rw [← h1, h2], pr.2, ?_, ?_⟩
    · rw [← h2]
      exact hmem
    · rw [← h2]
      exact hpred
  · rintro ⟨hsec, n, hn, hvid⟩
    refine List.mem_map.mpr ⟨(p, n), ?_, by rw [hsec]⟩
    refine List.mem_filter.mpr ⟨?_, hvid⟩
    rw [insertionSort_mem]
    exact hn

/-! ## `scan_library` bridge lemmas -/

theorem scan_library_dir_stats (s : Session) (rp : PyPath)
    (children : List (String × FSNode)) :
    (scan_library s rp (some (FSNode.dir children))).1 =
      (scanCourses rp s (sortedCourseDirs children)).1 := rfl

theorem scan_library_dir_db (s : Session) (rp : PyPath)
    (children : List (String × FSNode)) :
    (scan_library s rp (some (FSNode.dir children))).2.db =
      (scanCourses rp s (sortedCourseDirs children)).2.db := rfl

/-! ## Claim theorems -/

/-- C1: for every root, running `scan_library` twice with no filesystem
change in between yields identical `(courses_seen, lessons_seen)` on both
runs and creates zero new Course or Lesson rows on the second run. -/
theorem claim_C1_scan_idempotent (s : Session) (rootPath : PyPath)
    (root : Option FSNode) :
    (scan_library (scan_library s rootPath root).2 rootPath root).1 =
      (scan_library s rootPath root).1 ∧
    (scan_library (scan_library s rootPath root).2 rootPath root).2.db.courses.length =
      (scan_library s rootPath root).2.db.courses.length ∧
    (scan_library (scan_library s rootPath root).2 rootPath root).2.db.lessons.length =
      (scan_library s rootPath root).2.db.lessons.length := by
  match root with
  | none => exact ⟨rfl, rfl, rfl⟩
  | some FSNode.file => exact ⟨rfl, rfl, rfl⟩
  | some (FSNode.dir children) =>
    have hC : ∀ e ∈ sortedCourseDirs children,
        pathStr (rootPath ++ [e.1]) ∈
          coursePaths (scan_library s rootPath (some (FSNode.dir children))).2.db := by
      intro e he
      rw [scan_library_dir_db]
      exact scanCourses_courses_covers rootPath (sortedCourseDirs children) s e he
    have hL : ∀ e ∈ sortedCourseDirs children,
        ∀ it ∈ iter_video_files (rootPath ++ [e.1]) e.2,
        pathStr it.2 ∈
          lessonPaths (scan_library s rootPath (some (FSNode.dir children))).2.db := by
      intro e he it hit
      rw [scan_library_dir_db]
      exact scanCourses_lessons_covers rootPath (sortedCourseDirs children) s e he it hit
    obtain ⟨hnoC, hnoL⟩ := scanCourses_noinsert rootPath (sortedCourseDirs children)
      (scan_library s rootPath (some (FSNode.dir children))).2 hC hL
    refine ⟨?_, ?_, ?_⟩
    · rw [scan_library_dir_stats, scan_library_dir_stats, scanCourses_stats, scanCourses_stats]
    · rw [← coursePaths_length, ← coursePaths_length, scan_library_dir_db, hnoC]
    · rw [← lessonPaths_length, ← lessonPaths_length, scan_library_dir_db, hnoL]

/-- C2: `scan_library` counts observations: `courses_seen` is the number of
immediate subdirectories of the root and `lessons_seen` the total number of
allow-listed video files under them; on the concrete example root
(`CourseA/01 Intro/1 - Welcome.mp4`, `CourseA/02 Basics/2 - Vars.mkv`) it
returns `(1, 2)`, links both lessons to the single Course, assigns sections
`"01 Intro"`/`"02 Basics"` and ordering keys
`"01 Intro/1 - Welcome.mp4"`/`"02 Basics/2 - Vars.mkv"`, and natural order
on the ordering keys places Welcome before Vars. -/
theorem claim_C2_stats_and_example :
    (∀ (s : Session) (rootPath : PyPath) (children : List (String × FSNode)),
      (scan_library s rootPath (some (FSNode.dir children))).1 =
        { courses_seen := (children.filter (fun c => c.2.isDir)).length,
          lessons_seen := ((children.filter (fun c => c.2.isDir)).map
            (fun c => countVideos (rootPath ++ [c.1]) c.2)).sum }) ∧
    (scan_library emptySession ["root"] (some fsA)).1 =
      { courses_seen := 1, lessons_seen := 2 } ∧
    (scan_library emptySession ["root"] (some fsA)).2.db.courses =
      [{ id := 1, path := "root/CourseA", title := "CourseA",
         created_at := 0, updated_at := 0 }] ∧
    (scan_library emptySession ["root"] (some fsA)).2.db.lessons =
      [{ id := 1, course_id := 1, path := "root/CourseA/01 Intro/1 - Welcome.mp4",
         sect := "01 Intro", title := "1 - Welcome",
         order_key := "01 Intro/1 - Welcome.mp4", created_at := 0, updated_at := 0 },
       { id := 2, course_id := 1, path := "root/CourseA/02 Basics/2 - Vars.mkv",
         sect := "02 Basics", title := "2 - Vars",
         order_key := "02 Basics/2 - Vars.mkv", created_at := 0, updated_at := 0 }] ∧
    keyCmp (natural_key "01 Intro/1 - Welcome.mp4")
      (natural_key "02 Basics/2 - Vars.mkv") = some Ordering.lt := by
  refine ⟨?_, by decide, by decide, by decide, by decide⟩
  intro s rp children
  rw [scan_library_dir_stats, scanCourses_stats]
  have h1 : (sortedCourseDirs children).length =
      (children.filter (fun c => c.2.isDir)).length := insertionSort_len _ _
  have hperm : List.Perm (sortedCourseDirs children)
      (children.filter (fun c => c.2.isDir)) := insertionSort_permutation _ _
  have h2 : ((sortedCourseDirs children).map
        fun e => (iter_video_files (rp ++ [e.1]) e.2).length).sum =
      ((children.filter (fun c => c.2.isDir)).map
        fun c => countVideos (rp ++ [c.1]) c.2).sum := by
    calc ((sortedCourseDirs children).map
          fun e => (iter_video_files (rp ++ [e.1]) e.2).length).sum
        = ((sortedCourseDirs children).map
            fun e => countVideos (rp ++ [e.1]) e.2).sum := by
          simp only [iter_video_files_length]
      _ = ((children.filter (fun c => c.2.isDir)).map
            fun c => countVideos (rp ++ [c.1]) c.2).sum :=
          (hperm.map _).sum_eq
  rw [ScanStats.mk.injEq]
  exact ⟨h1, h2⟩

/-- C3: a scan only inserts or updates rows (every pre-existing Course and
Lesson row survives with its identifier, path and creation timestamp);
concretely, deleting `b.mp4` from disk and rescanning leaves its Lesson row
intact while `lessons_seen` drops to 1. -/
theorem claim_C3_monotonic :
    (∀ (s : Session) (rootPath : PyPath) (root : Option FSNode),
      (∀ c ∈ s.db.courses,
        ∃ c' ∈ (scan_library s rootPath root).2.db.courses, courseSig c' = courseSig c) ∧
      (∀ l ∈ s.db.lessons,
        ∃ l' ∈ (scan_library s rootPath root).2.db.lessons, lessonSig l' = lessonSig l)) ∧
    (scan_library (scan_library emptySession ["root"] (some fsDel1)).2
      ["root"] (some fsDel2)).1.lessons_seen = 1 ∧
    lessonLookup (scan_library (scan_library emptySession ["root"] (some fsDel1)).2
      ["root"] (some fsDel2)).2.db "root/CourseA/S1/b.mp4" =
      some { id := 2, course_id := 1, path := "root/CourseA/S1/b.mp4",
             sect := "S1", title := "b", order_key := "S1/b.mp4",
             created_at := 0, updated_at := 0 } ∧
    (scan_library (scan_library emptySession ["root"] (some fsDel1)).2
      ["root"] (some fsDel2)).2.db.lessons.length = 2 := by
  refine ⟨?_, by decide, by decide, by decide⟩
  intro s rootPath root
  match root with
  | none => exact ⟨fun c hc => ⟨c, hc, rfl⟩, fun l hl => ⟨l, hl, rfl⟩⟩
  | some FSNode.file => exact ⟨fun c hc => ⟨c, hc, rfl⟩, fun l hl => ⟨l, hl, rfl⟩⟩
  | some (FSNode.dir children) =>
    constructor
    · obtain ⟨ext, hext⟩ := scanCourses_sigC rootPath (sortedCourseDirs children) s
      intro c hc
      exact sig_ext_mem (by rw [scan_library_dir_db]; exact hext) c hc
    · obtain ⟨ext, hext⟩ := scanCourses_sigL rootPath (sortedCourseDirs children) s
      intro l hl
      exact sig_ext_mem (by rw [scan_library_dir_db]; exact hext) l hl

/-- Witness for C3: a concrete pre-existing row survives a concrete scan. -/
theorem claim_C3_witness :
    sampleCourse ∈ sampleSession.db.courses ∧
    ∃ c' ∈ (scan_library sampleSession ["root"] (some fsA)).2.db.courses,
      courseSig c' = courseSig sampleCourse :=
  ⟨List.mem_cons_self _ _,
   (claim_C3_monotonic.1 sampleSession ["root"] (some fsA)).1 sampleCourse
     (List.mem_cons_self _ _)⟩

/-- C4: `upsert_course` keys on the resolved path: when a Course with that
path exists it reuses the row (same id, no new row), refreshing the title
to the directory's current name, and leaves the store untouched when the
title already matches; when none exists it inserts a Course with
`path = resolved path`, `title = directory name` and the next generated id,
immediately available for linking. -/
theorem claim_C4_upsert_course (s : Session) (cd : PyPath) :
    (∀ e, courseLookup s.db (pathStr cd) = some e →
      (upsert_course s cd).1.id = e.id ∧
      (upsert_course s cd).1.path = e.path ∧
      (upsert_course s cd).1.title = pathName cd ∧
      (upsert_course s cd).2.db.courses.length = s.db.courses.length ∧
      courseLookup (upsert_course s cd).2.db (pathStr cd) =
        some { e with title := pathName cd } ∧
      (e.title = pathName cd → (upsert_course s cd).2.db = s.db)) ∧
    (courseLookup s.db (pathStr cd) = none →
      (upsert_course s cd).1 =
        { id := s.db.nextCourseId, path := pathStr cd, title := pathName cd,
          created_at := s.db.clock, updated_at := s.db.clock } ∧
      (upsert_course s cd).2.db.courses =
        s.db.courses ++ [(upsert_course s cd).1]) := by
  constructor
  · intro e he
    by_cases ht : e.title = pathName cd
    · have hred : upsert_course s cd =
          (e, { s with trace := s.trace ++ [StoreOp.lookupCourse (pathStr cd)] }) := by
        simp only [upsert_course, he, ht, ite_true]
      rw [hred]
      refine ⟨rfl, rfl, ht, rfl, ?_, fun _ => rfl⟩
      show courseLookup s.db (pathStr cd) = some { e with title := pathName cd }
      rw [he, ← ht]
    · have hred : upsert_course s cd =
          ({ e with title := pathName cd },
           { db := { s.db with
                       courses := replaceFirst (fun c : Course => c.path == pathStr cd)
                         (fun c : Course => { c with title := pathName cd }) s.db.courses },
             trace := s.trace ++ [StoreOp.lookupCourse (pathStr cd)] ++
               [StoreOp.updateCourseTitle e.id] }) := by
        simp only [upsert_course, he, ht, ite_false]
      rw [hred]
      refine ⟨rfl, rfl, rfl, replaceFirst_length _ _ _, ?_, fun h => absurd h ht⟩
      unfold courseLookup at he ⊢
      rw [find?_replaceFirst_hit (fun c : Course => c.path == pathStr cd)
        (fun c : Course => { c with title := pathName cd }) s.db.courses (fun x hx => hx), he]
      rfl
  · intro hn
    refine ⟨?_, ?_⟩ <;> simp only [upsert_course, hn]

/-- Witness for C4: inserting into the empty store. -/
theorem claim_C4_witness :
    courseLookup emptySession.db (pathStr ["root", "A"]) = none ∧
    (upsert_course emptySession ["root", "A"]).1 =
      { id := 1, path := "root/A", title := "A", created_at := 0, updated_at := 0 } ∧
    (upsert_course emptySession ["root", "A"]).2.db.courses =
      emptySession.db.courses ++ [(upsert_course emptySession ["root", "A"]).1] := by
  refine ⟨by decide, ?_⟩
  have h := (claim_C4_upsert_course emptySession ["root", "A"]).2 (by decide)
  exact ⟨by rw [h.1]; decide, h.2⟩

/-- C8: a missing root (nonexistent path) or a root that is a plain file
yields zero statistics and leaves the session untouched: no store lookup,
insert, update or commit is performed (the operation trace is unchanged)
and no error is raised. -/
theorem claim_C8_missing_root (s : Session) (rootPath : PyPath) :
    scan_library s rootPath none = ({ courses_seen := 0, lessons_seen := 0 }, s) ∧
    scan_library s rootPath (some FSNode.file) =
      ({ courses_seen := 0, lessons_seen := 0 }, s) :=
  ⟨rfl, rfl⟩

/-- C5 (amended): when `upsert_lesson` finds an existing Lesson by its
resolved file path it updates the row in place: the stored row afterwards
carries the observed course reference, section, title and ordering key,
exactly the differing fields are written (one update trace entry per
differing field), the identifier, path and both timestamps are unchanged,
every other row's lookup result is untouched, no row is added, and the
store is left completely unchanged when nothing differs.  Moving a file
changes its resolved path and therefore its identity, so a rescan after a
move inserts a new row at the new path instead of updating in place (see
the counterexample). -/
theorem claim_C5_upsert_lesson_frame (s : Session) (cid : Nat) (sec : String)
    (vp : PyPath) (ok : String) (e : Lesson)
    (he : lessonLookup s.db (pathStr vp) = some e) :
    (upsert_lesson s cid sec vp ok).1.id = e.id ∧
    (upsert_lesson s cid sec vp ok).1.path = e.path ∧
    (upsert_lesson s cid sec vp ok).1.created_at = e.created_at ∧
    (upsert_lesson s cid sec vp ok).1.updated_at = e.updated_at ∧
    (upsert_lesson s cid sec vp ok).1.course_id = cid ∧
    (upsert_lesson s cid sec vp ok).1.sect = sec ∧
    (upsert_lesson s cid sec vp ok).1.title = pyStem (pathName vp) ∧
    (upsert_lesson s cid sec vp ok).1.order_key = ok ∧
    lessonLookup (upsert_lesson s cid sec vp ok).2.db (pathStr vp) =
      some (upsert_lesson s cid sec vp ok).1 ∧
    (∀ q, q ≠ pathStr vp →
      lessonLookup (upsert_lesson s cid sec vp ok).2.db q = lessonLookup s.db q) ∧
    (upsert_lesson s cid sec vp ok).2.db.lessons.length = s.db.lessons.length ∧
    (∃ ops, (upsert_lesson s cid sec vp ok).2.trace =
        s.trace ++ StoreOp.lookupLesson (pathStr vp) :: ops ∧
      (StoreOp.updateLesson e.id LessonField.courseRef ∈ ops ↔ e.course_id ≠ cid) ∧
      (StoreOp.updateLesson e.id LessonField.sectField ∈ ops ↔ e.sect ≠ sec) ∧
      (StoreOp.updateLesson e.id LessonField.titleField ∈ ops ↔
        e.title ≠ pyStem (pathName vp)) ∧
      (StoreOp.updateLesson e.id LessonField.orderKeyField ∈ ops ↔ e.order_key ≠ ok)) ∧
    (e.course_id = cid ∧ e.sect = sec ∧ e.title = pyStem (pathName vp) ∧
      e.order_key = ok → (upsert_lesson s cid sec vp ok).2.db = s.db) := by
  have hred : upsert_lesson s cid sec vp ok =
      ({ e with course_id := cid, sect := sec,
                title := pyStem (pathName vp), order_key := ok },
       Session.mk
         { s.db with
             lessons := replaceFirst (fun l : Lesson => l.path == pathStr vp)
               (fun l : Lesson => { l with course_id := cid, sect := sec,
                                           title := pyStem (pathName vp),
                                           order_key := ok }) s.db.lessons }
         ((s.trace ++ [StoreOp.lookupLesson (pathStr vp)]) ++
           ((if e.course_id = cid then []
             else [StoreOp.updateLesson e.id LessonField.courseRef]) ++
            (if e.sect = sec then []
             else [StoreOp.updateLesson e.id LessonField.sectField]) ++
            (if e.title = pyStem (pathName vp) then []
             else [StoreOp.updateLesson e.id LessonField.titleField]) ++
            (if e.order_key = ok then []
             else [StoreOp.updateLesson e.id LessonField.orderKeyField])))) := by
    simp only [upsert_lesson, he]
  refine ⟨by rw [hred], by rw [hred], by rw [hred], by rw [hred], by rw [hred],
    by rw [hred], by rw [hred], by rw [hred],
    upsert_lesson_lookup_self s cid sec vp ok,
    fun q hq => upsert_lesson_lookup_other s cid sec vp ok hq,
    by rw [hred]; exact replaceFirst_length _ _ _, ?_, ?_⟩
  · refine ⟨(if e.course_id = cid then []
        else [StoreOp.updateLesson e.id LessonField.courseRef]) ++
      (if e.sect = sec then []
        else [StoreOp.updateLesson e.id LessonField.sectField]) ++
      (if e.title = pyStem (pathName vp) then []
        else [StoreOp.updateLesson e.id LessonField.titleField]) ++
      (if e.order_key = ok then []
        else [StoreOp.updateLesson e.id LessonField.orderKeyField]), ?_, ?_, ?_, ?_, ?_⟩
    · rw [hred]
      simp [List.append_assoc]
    · by_cases h1 : e.course_id = cid <;> by_cases h2 : e.sect = sec <;>
        by_cases h3 : e.title = pyStem (pathName vp) <;>
        by_cases h4 : e.order_key = ok <;> simp [h1, h2, h3, h4]
    · by_cases h1 : e.course_id = cid <;> by_cases h2 : e.sect = sec <;>
        by_cases h3 : e.title = pyStem (pathName vp) <;>
        by_cases h4 : e.order_key = ok <;> simp [h1, h2, h3, h4]
    · by_cases h1 : e.course_id = cid <;> by_cases h2 : e.sect = sec <;>
        by_cases h3 : e.title = pyStem (pathName vp) <;>
        by_cases h4 : e.order_key = ok <;> simp [h1, h2, h3, h4]
    · by_cases h1 : e.course_id = cid <;> by_cases h2 : e.sect = sec <;>
        by_cases h3 : e.title = pyStem (pathName vp) <;>
        by_cases h4 : e.order_key = ok <;> simp [h1, h2, h3, h4]
  · rintro ⟨h1, h2, h3, h4⟩
    rw [hred]
    have hfix : (fun l : Lesson => { l with course_id := cid, sect := sec,
                                            title := pyStem (pathName vp),
                                            order_key := ok }) e = e := by
      rw [← h1, ← h2, ← h3, ← h4]
    have : replaceFirst (fun l : Lesson => l.path == pathStr vp)
        (fun l : Lesson => { l with course_id := cid, sect := sec,
                                    title := pyStem (pathName vp),
                                    order_key := ok }) s.db.lessons =
        s.db.lessons :=
      replaceFirst_eq_self _ _ s.db.lessons e he hfix
    rw [this]

/-- Witness for C5: an in-place update on a concrete store preserves the
identifier. -/
theorem claim_C5_witness :
    lessonLookup sampleSession.db (pathStr ["root", "Old", "x.mp4"]) =
      some sampleLesson ∧
    (upsert_lesson sampleSession 7 "NewSec" ["root", "Old", "x.mp4"] "y/x.mp4").1.id =
      sampleLesson.id :=
  ⟨by decide,
   (claim_C5_upsert_lesson_frame sampleSession 7 "NewSec" ["root", "Old", "x.mp4"]
     "y/x.mp4" sampleLesson (by decide)).1⟩

/-- Counterexample for C5 as stated: moving `CourseA/S1/f.mp4` to
`CourseA/S2/f.mp4` and rescanning does NOT update the Lesson in place
(which would leave one row, still with id 1, at the new path); instead the
store ends up with two rows: a fresh row with id 2 at the new path and the
stale row id 1 at the old path. -/
theorem claim_C5_counterexample :
    ¬ ((scan_library (scan_library emptySession ["root"] (some fsMove1)).2
          ["root"] (some fsMove2)).2.db.lessons.length = 1 ∧
       (lessonLookup (scan_library (scan_library emptySession ["root"] (some fsMove1)).2
          ["root"] (some fsMove2)).2.db "root/CourseA/S2/f.mp4").map Lesson.id =
         some 1) ∧
    (scan_library (scan_library emptySession ["root"] (some fsMove1)).2
      ["root"] (some fsMove2)).2.db.lessons.length = 2 ∧
    (lessonLookup (scan_library (scan_library emptySession ["root"] (some fsMove1)).2
      ["root"] (some fsMove2)).2.db "root/CourseA/S2/f.mp4").map Lesson.id = some 2 ∧
    (lessonLookup (scan_library (scan_library emptySession ["root"] (some fsMove1)).2
      ["root"] (some fsMove2)).2.db "root/CourseA/S1/f.mp4").map Lesson.id = some 1 := by
  decide

/-- C6: the walker yields exactly the descendant regular files of the
course directory whose extension, lowered, is in the allow-list, tagged
with the parent directory name, and its output is sorted by natural order
of the full path string. -/
theorem claim_C6_walker (cd : PyPath) (node : FSNode) :
    (∀ (sec : String) (p : PyPath),
      (sec, p) ∈ iter_video_files cd node ↔
        sec = parentName p ∧
        ∃ n, (p, n) ∈ descendants cd node ∧ n.isFile = true ∧
          VIDEO_EXTS.contains (strLower (pySuffix (pathName p))) = true) ∧
    List.Pairwise (fun a b : String × PyPath =>
      keyLe (natural_key (pathStr a.2)) (natural_key (pathStr b.2)) = true)
      (iter_video_files cd node) := by
  constructor
  · intro sec p
    rw [iter_video_files_mem]
    unfold isVideo
    simp [Bool.and_eq_true, and_assoc]
  · unfold iter_video_files
    have htot : ∀ (x y : PyPath × FSNode),
        keyLe (natural_key (pathStr x.1)) (natural_key (pathStr y.1)) = true ∨
        keyLe (natural_key (pathStr y.1)) (natural_key (pathStr x.1)) = true :=
      fun x y => keyLe_nk_total _ _
    have htrans : ∀ (x y z : PyPath × FSNode),
        keyLe (natural_key (pathStr x.1)) (natural_key (pathStr y.1)) = true →
        keyLe (natural_key (pathStr y.1)) (natural_key (pathStr z.1)) = true →
        keyLe (natural_key (pathStr x.1)) (natural_key (pathStr z.1)) = true :=
      fun x y z => keyLe_nk_trans _ _ _
    have hsor := insertionSort_sorted
      (fun a b : PyPath × FSNode =>
        keyLe (natural_key (pathStr a.1)) (natural_key (pathStr b.1)))
      htot htrans (descendants cd node)
    exact (List.Pairwise.sublist (List.filter_sublist _) hsor).map _ (fun a b h => h)

/-- C9: `natural_key` is total over arbitrary strings and comparing any two
keys element-wise is always well-defined: the keys of any two strings have
tokens of the same kind at every shared position (text at even positions,
numeric at odd positions), so the comparison never hits an int-vs-str
mismatch, and a key that is a proper prefix of another compares as
smaller. -/
theorem claim_C9_natural_key (a b : String) :
    (keyCmp (natural_key a) (natural_key b)).isSome = true ∧
    (∀ (i : Nat) (h1 : i < (natural_key a).length) (h2 : i < (natural_key b).length),
      ((natural_key a).get ⟨i, h1⟩).isNum = ((natural_key b).get ⟨i, h2⟩).isNum ∧
      (i % 2 = 0 → ((natural_key a).get ⟨i, h1⟩).isNum = false) ∧
      (i % 2 = 1 → ((natural_key a).get ⟨i, h1⟩).isNum = true)) ∧
    (∀ t : List NToken, t ≠ [] → natural_key b = natural_key a ++ t →
      keyCmp (natural_key a) (natural_key b) = some Ordering.lt) := by
  refine ⟨keyCmp_isSome false _ _ (natural_key_alt a) (natural_key_alt b), ?_, ?_⟩
  · intro i h1 h2
    have ga := AltK_get false (natural_key a) (natural_key_alt a) i h1
    have gb := AltK_get false (natural_key b) (natural_key_alt b) i h2
    refine ⟨by rw [ga, gb], ?_, ?_⟩
    · intro hi
      rw [ga]
      simp [hi]
    · intro hi
      rw [ga]
      have hne : ¬ i % 2 = 0 := by omega
      simp [hne]
  · intro t ht hb
    rw [hb]
    exact keyCmp_self_append _ t ht

/-- Witness for C9 at `a := "a"`, `b := "a1"`: the comparison is defined
and the shorter key (a proper prefix) compares as smaller. -/
theorem claim_C9_witness :
    (keyCmp (natural_key "a") (natural_key "a1")).isSome = true ∧
    keyCmp (natural_key "a") (natural_key "a1") = some Ordering.lt :=
  ⟨(claim_C9_natural_key "a" "a1").1,
   (claim_C9_natural_key "a" "a1").2.2 [NToken.num 1, NToken.str ""]
     (by decide) (by decide)⟩

/-- C10: a video file lying directly in a course directory is tagged with
the course directory's own name as its section (which is exactly the
string `upsert_course` stores as the course title), not an empty or
sentinel label. -/
theorem claim_C10_direct_file_section (cd : PyPath) (node : FSNode) (sec : String)
    (p : PyPath) (h : (sec, p) ∈ iter_video_files cd node)
    (hdirect : p.dropLast = cd) : sec = pathName cd := by
  have hs := (iter_video_files_mem.mp h).1
  rw [hs]
  unfold parentName
  rw [hdirect]

/-- Witness for C10: a file directly under `root/CourseA` gets section
`"CourseA"`. -/
theorem claim_C10_witness :
    ("CourseA", ["root", "CourseA", "v.mp4"]) ∈
      iter_video_files ["root", "CourseA"] (FSNode.dir [("v.mp4", FSNode.file)]) ∧
    (["root", "CourseA", "v.mp4"] : PyPath).dropLast = ["root", "CourseA"] ∧
    "CourseA" = pathName ["root", "CourseA"] :=
  ⟨by decide, by decide,
   claim_C10_direct_file_section ["root", "CourseA"]
     (FSNode.dir [("v.mp4", FSNode.file)]) "CourseA" ["root", "CourseA", "v.mp4"]
     (by decide) (by decide)⟩

/-! ## Path well-formedness: names without separators make `pathStr`
injective, which pins down which file an upsert targets. -/

theorem str_data_inj : ∀ {s t : String}, s.data = t.data → s = t
  | ⟨_⟩, ⟨_⟩, rfl => rfl

theorem sep_split : ∀ (xs ys as bs : List Char), '/' ∉ xs → '/' ∉ ys →
    xs ++ '/' :: as = ys ++ '/' :: bs → xs = ys ∧ as = bs
  | [], [], _, _, _, _, h => ⟨rfl, by simpa using h⟩
  | [], y :: ys, _, _, _, hy, h => by
    simp only [List.nil_append, List.cons_append, List.cons.injEq] at h
    exact absurd (by rw [h.1]; exact List.mem_cons_self y ys) hy
  | x :: xs, [], _, _, hx, _, h => by
    simp only [List.nil_append, List.cons_append, List.cons.injEq] at h
    exact absurd (by rw [← h.1]; exact List.mem_cons_self x xs) hx
  | x :: xs, y :: ys, as, bs, hx, hy, h => by
    simp only [List.cons_append, List.cons.injEq] at h
    have hx' : '/' ∉ xs := fun hm => hx (List.mem_cons_of_mem x hm)
    have hy' : '/' ∉ ys := fun hm => hy (List.mem_cons_of_mem y hm)
    obtain ⟨h1, h2⟩ := sep_split xs ys as bs hx' hy' h.2
    exact ⟨by rw [h.1, h1], h2⟩

theorem okName_spec {s : String} (h : okName s = true) :
    s.data ≠ [] ∧ '/' ∉ s.data := by
  unfold okName at h
  rw [Bool.and_eq_true] at h
  constructor
  · intro he
    rw [he] at h
    simp at h
  · intro hm
    have h2 := h.2
    rw [Bool.not_eq_true'] at h2
    rw [← List.elem_iff] at hm
    rw [List.contains] at h2
    rw [hm] at h2
    cases h2

theorem pathStr_append : ∀ (xs ys : PyPath), xs ≠ [] → ys ≠ [] →
    pathStr (xs ++ ys) = pathStr xs ++ "/" ++ pathStr ys
  | [], _, hx, _ => absurd rfl hx
  | [x], ys, _, hy => by
    cases ys with
    | nil => exact absurd rfl hy
    | cons y ys' => rfl
  | x :: x2 :: xs, ys, _, hy => by
    have ih := pathStr_append (x2 :: xs) ys (by simp) hy
    have h1 : pathStr ((x :: x2 :: xs) ++ ys) =
        x ++ "/" ++ pathStr ((x2 :: xs) ++ ys) := rfl
    have h2 : pathStr (x :: x2 :: xs) = x ++ "/" ++ pathStr (x2 :: xs) := rfl
    rw [h1, ih, h2]
    simp [String.append_assoc]

theorem pathStr_data_cons (x : String) (y : String) (t : PyPath) :
    (pathStr (x :: y :: t)).data = x.data ++ '/' :: (pathStr (y :: t)).data := by
  have h : pathStr (x :: y :: t) = x ++ "/" ++ pathStr (y :: t) := rfl
  rw [h, String.data_append, String.data_append]
  simp

theorem pathStr_inj_ok : ∀ (r1 r2 : PyPath), (∀ c ∈ r1, okName c = true) →
    (∀ c ∈ r2, okName c = true) → r1 ≠ [] → r2 ≠ [] →
    pathStr r1 = pathStr r2 → r1 = r2
  | [], _, _, _, h1, _, _ => absurd rfl h1
  | _ :: _, [], _, _, _, h2, _ => absurd rfl h2
  | [x], [y], _, _, _, _, h => by
    have : x = y := h
    rw [this]
  | [x], y :: y2 :: ys, h1, _, _, _, h => by
    exfalso
    have hx := okName_spec (h1 x (List.mem_cons_self x []))
    apply hx.2
    have hd : x.data = y.data ++ '/' :: (pathStr (y2 :: ys)).data := by
      have := congrArg String.data h
      rwa [pathStr_data_cons] at this
    rw [hd]
    exact List.mem_append_right _ (List.mem_cons_self _ _)
  | x :: x2 :: xs, [y], _, h2, _, _, h => by
    exfalso
    have hy := okName_spec (h2 y (List.mem_cons_self y []))
    apply hy.2
    have hd : y.data = x.data ++ '/' :: (pathStr (x2 :: xs)).data := by
      have := congrArg String.data h.symm
      rwa [pathStr_data_cons] at this
    rw [hd]
    exact List.mem_append_right _ (List.mem_cons_self _ _)
  | x :: x2 :: xs, y :: y2 :: ys, h1, h2, _, _, h => by
    have hd : x.data ++ '/' :: (pathStr (x2 :: xs)).data =
        y.data ++ '/' :: (pathStr (y2 :: ys)).data := by
      have := congrArg String.data h
      rwa [pathStr_data_cons, pathStr_data_cons] at this
    have hxok := okName_spec (h1 x (List.mem_cons_self x _))
    have hyok := okName_spec (h2 y (List.mem_cons_self y _))
    obtain ⟨hxy, hrest⟩ := sep_split _ _ _ _ hxok.2 hyok.2 hd
    have hx : x = y := str_data_inj hxy
    have hps : pathStr (x2 :: xs) = pathStr (y2 :: ys) := str_data_inj hrest
    have htl := pathStr_inj_ok (x2 :: xs) (y2 :: ys)
      (fun c hc => h1 c (List.mem_cons_of_mem x hc))
      (fun c hc => h2 c (List.mem_cons_of_mem y hc))
      (by simp) (by simp) hps
    rw [hx, htl]

theorem okNamesList_mem : ∀ (cs : List (String × FSNode)),
    okNamesList cs = true → ∀ e ∈ cs, okName e.1 = true ∧ e.2.okNames = true
  | [], _, e, he => by simp at he
  | (nm, child) :: rest, h, e, he => by
    have h' : (okName nm && child.okNames && okNamesList rest) = true := h
    rw [Bool.and_eq_true, Bool.and_eq_true] at h'
    rcases List.mem_cons.mp he with h'' | h''
    · rw [h'']
      exact ⟨h'.1.1, h'.1.2⟩
    · exact okNamesList_mem rest h'.2 e h''

/-- Every member of `descendants base node` extends `base` by a nonempty
relative path whose components are well-formed names when the tree's
names are. -/
theorem descendants_spec (n : Nat) : ∀ (node : FSNode), sizeOf node ≤ n →
    ∀ (base p : PyPath) (m : FSNode), (p, m) ∈ descendants base node →
    ∃ rel, rel ≠ [] ∧ p = base ++ rel ∧
      (node.okNames = true → ∀ c ∈ rel, okName c = true) := by
  induction n with
  | zero =>
    intro node hn
    exfalso
    cases node <;> simp_arith at hn
  | succ n ih =>
    intro node hn base p m h
    cases node with
    | file => simp [descendants] at h
    | dir cs =>
      rw [show descendants base (FSNode.dir cs) = descendantsList base cs from rfl] at h
      rw [show (FSNode.dir cs).okNames = okNamesList cs from rfl]
      have hsz : sizeOf cs ≤ n := by
        simp_arith [FSNode.dir.sizeOf_spec] at hn
        omega
      clear hn
      revert hsz h
      induction cs with
      | nil =>
        intro h _
        simp [descendantsList] at h
      | cons hd tl ihtl =>
        intro h hsz
        obtain ⟨nm, child⟩ := hd
        have hszc : sizeOf child ≤ n ∧ sizeOf tl ≤ n := by
          simp_arith [List.cons.sizeOf_spec, Prod.mk.sizeOf_spec] at hsz
          omega
        rw [show descendantsList base ((nm, child) :: tl) =
          (base ++ [nm], child) :: (descendants (base ++ [nm]) child ++
            descendantsList base tl) from rfl] at h
        have hokc : ∀ (hok : okNamesList ((nm, child) :: tl) = true),
            okName nm = true ∧ child.okNames = true ∧ okNamesList tl = true := by
          intro hok
          have h' : (okName nm && child.okNames && okNamesList tl) = true := hok
          rw [Bool.and_eq_true, Bool.and_eq_true] at h'
          exact ⟨h'.1.1, h'.1.2, h'.2⟩
        rcases List.mem_cons.mp h with h' | h'
        · refine ⟨[nm], by simp, ?_, ?_⟩
          · have := congrArg Prod.fst h'
            simpa using this
          · intro hok c hc
            rw [List.mem_singleton.mp hc]
            exact (hokc hok).1
        · rcases List.mem_append.mp h' with h'' | h''
          · obtain ⟨rel, hne, hpe, hrelok⟩ := ih child hszc.1 (base ++ [nm]) p m h''
            refine ⟨nm :: rel, by simp, ?_, ?_⟩
            · rw [hpe, List.append_assoc]
              rfl
            · intro hok c hc
              rcases List.mem_cons.mp hc with hc' | hc'
              · rw [hc']
                exact (hokc hok).1
              · exact hrelok (hokc hok).2.1 c hc'
          · obtain ⟨rel, hne, hpe, hrelok⟩ := ihtl h'' hszc.2
            refine ⟨rel, hne, hpe, ?_⟩
            intro hok
            exact hrelok (hokc hok).2.2

/-! ## The section / ordering-key invariant (claim C7) -/

theorem scanLessons_good (cid : Nat) (cd : PyPath) (items : List (String × PyPath))
    (p : PyPath) (okv : String) : ∀ s,
    (∀ it ∈ items, pathStr it.2 = pathStr p →
      it.1 = parentName p ∧ pathStr (it.2.drop cd.length) = okv) →
    ((∃ r, lessonLookup s.db (pathStr p) = some r ∧ r.sect = parentName p ∧
        r.order_key = okv) ∨
      ∃ it ∈ items, pathStr it.2 = pathStr p) →
    ∃ r, lessonLookup (scanLessons cid cd s items).2.db (pathStr p) = some r ∧
      r.sect = parentName p ∧ r.order_key = okv := by
  induction items with
  | nil =>
    intro s _ hstart
    rcases hstart with h | ⟨it, hit, _⟩
    · exact h
    · simp at hit
  | cons hd rest ih =>
    intro s hcons hstart
    simp only [scanLessons]
    by_cases heq : pathStr hd.2 = pathStr p
    · obtain ⟨hsec, hord⟩ := hcons hd (List.mem_cons_self hd rest) heq
      refine ih _ (fun it hit h' => hcons it (List.mem_cons_of_mem hd hit) h') (Or.inl ?_)
      refine ⟨(upsert_lesson s cid hd.1 hd.2 (pathStr (hd.2.drop cd.length))).1, ?_, ?_, ?_⟩
      · rw [← heq]
        exact upsert_lesson_lookup_self s cid hd.1 hd.2 _
      · rw [(upsert_lesson_result s cid hd.1 hd.2 _).2.1]
        exact hsec
      · rw [(upsert_lesson_result s cid hd.1 hd.2 _).2.2.2.1]
        exact hord
    · refine ih _ (fun it hit h' => hcons it (List.mem_cons_of_mem hd hit) h') ?_
      rcases hstart with ⟨r, hr, h1, h2⟩ | ⟨it, hit, hps⟩
      · left
        refine ⟨r, ?_, h1, h2⟩
        rw [upsert_lesson_lookup_other s cid hd.1 hd.2 _ (fun hh => heq hh.symm)]
        exact hr
      · rcases List.mem_cons.mp hit with h' | h'
        · exact absurd (h' ▸ hps) heq
        · exact Or.inr ⟨it, h', hps⟩

theorem scanCourses_good (rp : PyPath) (l : List (String × FSNode)) (p : PyPath)
    (okv : String) : ∀ s,
    (∀ e ∈ l, ∀ it ∈ iter_video_files (rp ++ [e.1]) e.2, pathStr it.2 = pathStr p →
      it.1 = parentName p ∧ pathStr (it.2.drop (rp.length + 1)) = okv) →
    ((∃ r, lessonLookup s.db (pathStr p) = some r ∧ r.sect = parentName p ∧
        r.order_key = okv) ∨
      ∃ e ∈ l, ∃ it ∈ iter_video_files (rp ++ [e.1]) e.2, pathStr it.2 = pathStr p) →
    ∃ r, lessonLookup (scanCourses rp s l).2.db (pathStr p) = some r ∧
      r.sect = parentName p ∧ r.order_key = okv := by
  induction l with
  | nil =>
    intro s _ hstart
    rcases hstart with h | ⟨e, he, _⟩
    · exact h
    · simp at he
  | cons hd rest ih =>
    intro s hcons hstart
    simp only [scanCourses]
    have hlen : (rp ++ [hd.1]).length = rp.length + 1 := by simp
    have hconsHd : ∀ it ∈ iter_video_files (rp ++ [hd.1]) hd.2,
        pathStr it.2 = pathStr p →
        it.1 = parentName p ∧ pathStr (it.2.drop (rp ++ [hd.1]).length) = okv := by
      intro it hit h'
      rw [hlen]
      exact hcons hd (List.mem_cons_self hd rest) it hit h'
    have hconsRest : ∀ e ∈ rest, ∀ it ∈ iter_video_files (rp ++ [e.1]) e.2,
        pathStr it.2 = pathStr p →
        it.1 = parentName p ∧ pathStr (it.2.drop (rp.length + 1)) = okv :=
      fun e he => hcons e (List.mem_cons_of_mem hd he)
    rcases hstart with hG | ⟨e, he, it, hit, hps⟩
    · have hG1 : ∃ r, lessonLookup (upsert_course s (rp ++ [hd.1])).2.db (pathStr p) =
          some r ∧ r.sect = parentName p ∧ r.order_key = okv := by
        obtain ⟨r, h1, h2, h3⟩ := hG
        exact ⟨r, by rw [upsert_course_lessonLookup]; exact h1, h2, h3⟩
      have hG2 := scanLessons_good (upsert_course s (rp ++ [hd.1])).1.id (rp ++ [hd.1])
        (iter_video_files (rp ++ [hd.1]) hd.2) p okv (upsert_course s (rp ++ [hd.1])).2
        hconsHd (Or.inl hG1)
      exact ih _ hconsRest (Or.inl hG2)
    · rcases List.mem_cons.mp he with h' | h'
      · subst h'
        have hG2 := scanLessons_good (upsert_course s (rp ++ [e.1])).1.id (rp ++ [e.1])
          (iter_video_files (rp ++ [e.1]) e.2) p okv (upsert_course s (rp ++ [e.1])).2
          hconsHd (Or.inr ⟨it, hit, hps⟩)
        exact ih _ hconsRest (Or.inl hG2)
      · exact ih _ hconsRest (Or.inr ⟨e, h', it, hit, hps⟩)

/-- C7: after a scan over a well-formed tree (directory-entry names
nonempty and free of the path separator, as on a real filesystem), every
matched video file of the pass is reconciled to a stored Lesson whose
section is the name of the file's immediate parent directory and whose
ordering key is the file's path relative to its course directory,
serialized as a plain path string. -/
theorem claim_C7_section_orderkey (s : Session) (rootPath : PyPath)
    (children : List (String × FSNode)) (hok : okNamesList children = true)
    (e : String × FSNode) (he : e ∈ children) (hdir : e.2.isDir = true)
    (it : String × PyPath) (hit : it ∈ iter_video_files (rootPath ++ [e.1]) e.2) :
    ∃ r, lessonLookup (scan_library s rootPath (some (FSNode.dir children))).2.db
        (pathStr it.2) = some r ∧
      r.sect = parentName it.2 ∧
      r.order_key = pathStr (it.2.drop (rootPath.length + 1)) := by
  obtain ⟨sec0, p0⟩ := it
  rw [scan_library_dir_db]
  have heSorted : e ∈ sortedCourseDirs children := by
    unfold sortedCourseDirs
    rw [insertionSort_mem]
    exact List.mem_filter.mpr ⟨he, hdir⟩
  obtain ⟨hok1, hok2⟩ := okNamesList_mem children hok e he
  obtain ⟨hsec0, n0, hn0, hv0⟩ := iter_video_files_mem.mp hit
  obtain ⟨rel, hne, hpe, hrelok⟩ :=
    descendants_spec (sizeOf e.2) e.2 le_rfl (rootPath ++ [e.1]) p0 n0 hn0
  have hrelok2 := hrelok hok2
  have hp0 : p0 = rootPath ++ (e.1 :: rel) := by
    rw [hpe, List.append_assoc]
    rfl
  have hokv : ∀ c ∈ e.1 :: rel, okName c = true := by
    intro c hc
    rcases List.mem_cons.mp hc with h | h
    · rw [h]
      exact hok1
    · exact hrelok2 c h
  refine scanCourses_good rootPath (sortedCourseDirs children) p0
    (pathStr (p0.drop (rootPath.length + 1))) s ?_
    (Or.inr ⟨e, heSorted, (sec0, p0), hit, rfl⟩)
  intro e' he' it' hit' hps
  obtain ⟨sec', p'⟩ := it'
  have he'c : e' ∈ children ∧ e'.2.isDir = true := by
    unfold sortedCourseDirs at he'
    rw [insertionSort_mem] at he'
    exact List.mem_filter.mp he'
  obtain ⟨hok1', hok2'⟩ := okNamesList_mem children hok e' he'c.1
  obtain ⟨hsec', n', hn', hv'⟩ := iter_video_files_mem.mp hit'
  obtain ⟨rel', hne', hpe', hrelok'⟩ :=
    descendants_spec (sizeOf e'.2) e'.2 le_rfl (rootPath ++ [e'.1]) p' n' hn'
  have hrelok2' := hrelok' hok2'
  have hp' : p' = rootPath ++ (e'.1 :: rel') := by
    rw [hpe', List.append_assoc]
    rfl
  have hokv' : ∀ c ∈ e'.1 :: rel', okName c = true := by
    intro c hc
    rcases List.mem_cons.mp hc with h | h
    · rw [h]
      exact hok1'
    · exact hrelok2' c h
  have hu : (e'.1 :: rel') = (e.1 :: rel) := by
    have hps' : pathStr (e'.1 :: rel') = pathStr (e.1 :: rel) := by
      cases rootPath with
      | nil => simpa [hp', hp0] using hps
      | cons rh rt =>
        have hA := pathStr_append (rh :: rt) (e'.1 :: rel') (by simp) (by simp)
        have hB := pathStr_append (rh :: rt) (e.1 :: rel) (by simp) (by simp)
        rw [hp', hp0, hA, hB] at hps
        have hdata := congrArg String.data hps
        simp only [String.data_append] at hdata
        exact str_data_inj (List.append_cancel_left hdata)
    exact pathStr_inj_ok _ _ hokv' hokv (by simp) (by simp) hps'
  have hpp : p' = p0 := by
    rw [hp', hp0, hu]
  constructor
  · rw [hsec', hpp]
  · rw [hpp]

/-- Witness for C7 on the end-to-end example tree. -/
theorem claim_C7_witness :
    okNamesList fsAkids = true ∧
    ∃ r, lessonLookup (scan_library emptySession ["root"]
        (some (FSNode.dir fsAkids))).2.db
        (pathStr ["root", "CourseA", "01 Intro", "1 - Welcome.mp4"]) = some r ∧
      r.sect = parentName ["root", "CourseA", "01 Intro", "1 - Welcome.mp4"] ∧
      r.order_key = pathStr ((["root", "CourseA", "01 Intro",
        "1 - Welcome.mp4"] : PyPath).drop ((["root"] : PyPath).length + 1)) :=
  ⟨by decide,
   claim_C7_section_orderkey emptySession ["root"] fsAkids (by decide)
     ("CourseA", courseANode) (List.mem_cons_self _ _) (by decide)
     ("01 Intro", ["root", "CourseA", "01 Intro", "1 - Welcome.mp4"]) (by decide)⟩

end LCB
